import Mathlib

/-!
Verification of the MDTF-diagnostics configuration core against its
natural-language specification.

Python strings are embedded as lists of characters (`PyStr`), the
filesystem as the finite list of existing path strings, and the relevant
functions of `src/src/configs.py`, `framework/configs.py` and
`framework/framework.py` as executable Lean definitions over that model.
-/

set_option maxHeartbeats 1000000

/-- Python `str`, embedded as a list of characters. -/
abbrev PyStr := List Char

/-- Convenience conversion from a Lean string literal to `PyStr`. -/
def chars (s : String) : PyStr := s.data

namespace MDTF

/-- `str.rstrip(os.sep)` with `os.sep = '/'`: remove every trailing slash. -/
def rstripSlash (p : PyStr) : PyStr := (p.reverse.dropWhile (fun c => c = '/')).reverse

/-- The part of a path after its last slash: the tail computed by
`os.path.split` (posixpath: everything after the last occurrence of the
separator). -/
def lastComp (p : PyStr) : PyStr := (p.reverse.takeWhile (fun c => c ≠ '/')).reverse

/-- The part of a path up to and including its last slash (empty when the
path has no slash): the raw head computed by `os.path.split` before the
trailing-separator strip. -/
def rawHead (p : PyStr) : PyStr := (p.reverse.dropWhile (fun c => c ≠ '/')).reverse

/-- `os.path.split` (posixpath): split at the last slash; the head keeps
its trailing slashes only when it consists of nothing but slashes. -/
def pathSplit (p : PyStr) : PyStr × PyStr :=
  let hd := rawHead p
  (if hd ≠ [] ∧ hd.any (fun c => c ≠ '/') then rstripSlash hd else hd, lastComp p)

/-- `os.path.join(a, b)` (posixpath) for two components. -/
def pathJoin (a b : PyStr) : PyStr :=
  if b.head? = some '/' then b
  else if a = [] ∨ a.getLast? = some '/' then a ++ b
  else a ++ '/' :: b

/-- `joinPre a` is the prefix `pathJoin a b` puts before a relative `b`. -/
def joinPre (a : PyStr) : PyStr :=
  if a = [] then [] else if a.getLast? = some '/' then a else a ++ ['/']

/-- The character of one decimal digit. -/
def digitChar (d : Nat) : Char :=
  match d with
  | 0 => '0' | 1 => '1' | 2 => '2' | 3 => '3' | 4 => '4'
  | 5 => '5' | 6 => '6' | 7 => '7' | 8 => '8' | _ => '9'

/-- Fuel-bounded digit expansion (structural recursion so that concrete
values reduce definitionally). -/
def natDigitsAux : Nat → Nat → PyStr
  | 0, _ => []
  | fuel + 1, n =>
    if n < 10 then [digitChar (n % 10)]
    else natDigitsAux fuel (n / 10) ++ [digitChar (n % 10)]

/-- Decimal digits of a natural number, as produced by Python `str(n)`:
`n + 1` units of fuel always suffice. -/
def natDigits (n : Nat) : PyStr := natDigitsAux (n + 1) n

/-- Python `int(s)` on a string of decimal digits. -/
def digitsToNat (l : PyStr) : Nat := l.foldl (fun n c => 10 * n + (c.toNat - 48)) 0

/-- `_split_version` inside `bump_version` (src/src/configs.py): match the
filename against lazy-base regex `(.*?)(\.v(digits))?$`, i.e. strip a
trailing marker `.v<digits>` when present. -/
def splitVersion (f : PyStr) : PyStr × Option Nat :=
  let r := f.reverse
  let ds := r.takeWhile Char.isDigit
  match ds, r.dropWhile Char.isDigit with
  | [], _ => (f, none)
  | _ :: _, 'v' :: '.' :: rest2 => (rest2.reverse, some (digitsToNat ds.reverse))
  | _ :: _, _ => (f, none)

/-- `os.path.splitext` (posixpath) on a slash-free filename: split at the
last dot, unless every character before that dot is itself a dot. -/
def splitExt (f : PyStr) : PyStr × PyStr :=
  let w := f.reverse.takeWhile (fun c => c ≠ '.')
  if w.length = f.length then (f, [])
  else
    let base := f.take (f.length - w.length - 1)
    if base.any (fun c => c ≠ '.') then (base, '.' :: w.reverse) else (f, [])

/-- The filename-parsing phase of `bump_version`: first try to strip a
trailing `.vN` marker; failing that, split off the extension and try
again on what precedes it. Returns `(file_base, version, extension)`. -/
def parseFile (f : PyStr) : PyStr × Option Nat × PyStr :=
  match splitVersion f with
  | (b1, some v) => (b1, some v, [])
  | (_, none) =>
    let (b2, e) := splitExt f
    let (b3, v3) := splitVersion b2
    (b3, v3, e)

/-- `_reassemble` inside `bump_version`: rebuild `dir/file.vN ext` + final
separator; a zero version (falsy in Python) leaves no marker. -/
def reassemble (dir_ file_ : PyStr) (v : Nat) (ext sep : PyStr) : PyStr :=
  pathJoin dir_ (if v ≠ 0 then file_ ++ chars ".v" ++ natDigits v ++ ext else file_ ++ ext) ++ sep

/-- `_path_exists` inside `bump_version`: does the reassembly at version
`v` exist (as a path string in the filesystem model `fs`) under any of the
directories in `dirs`? -/
def pathExistsAny (fs : List PyStr) (dirs : List PyStr) (file_ : PyStr) (v : Nat)
    (ext sep : PyStr) : Bool :=
  dirs.any (fun d => fs.contains (reassemble d file_ v ext sep))

/-- One candidate version is collision-free. -/
def bumpFree (fs : List PyStr) (dirs : List PyStr) (file_ : PyStr) (v : Nat)
    (ext sep : PyStr) : Bool :=
  ! pathExistsAny fs dirs file_ v ext sep

/-- The `while _path_exists: new_v += 1` probe loop of `bump_version`,
with an explicit step bound (the Python loop diverges when every candidate
exists; the repository's own tests note this). -/
def probe (fs : List PyStr) (dirs : List PyStr) (file_ : PyStr) (ext sep : PyStr) :
    Nat → Nat → Nat
  | 0, v => v
  | fuel + 1, v =>
    if pathExistsAny fs dirs file_ v ext sep then probe fs dirs file_ ext sep fuel (v + 1)
    else v

/-- The leading trailing-separator handling of `bump_version`. -/
def stripSep (path : PyStr) : PyStr × PyStr :=
  if path.getLast? = some '/' then (rstripSlash path, ['/']) else (path, [])

/-- `bump_version(path, new_v, extra_dirs)` from src/src/configs.py,
lines 404-463, over the filesystem model `fs` (a path exists iff its
string is listed in `fs`). -/
def bump_version (fs : List PyStr) (path : PyStr) (new_v : Option Nat)
    (extra_dirs : List PyStr) : PyStr × Nat :=
  let (p, sep) := stripSep path
  let (dir_, f0) := pathSplit p
  let dirs := extra_dirs ++ [dir_]
  let (file_, old_v, ext) := parseFile f0
  match new_v with
  | some k => (reassemble dir_ file_ k ext sep, k)
  | none =>
    let v := probe fs dirs file_ ext sep (fs.length + 1) (old_v.getD 0)
    (reassemble dir_ file_ v ext sep, v)

/-! ### Derived path observations used to state the invariants -/

/-- Last path component after discarding trailing separators. -/
def lastCompFull (p : PyStr) : PyStr := lastComp (rstripSlash p)

/-- The `.vN` marker carried by the last component of a path, read off by
the same two-phase parse `bump_version` uses. -/
def pathVersionTag (p : PyStr) : Option Nat := (parseFile (lastCompFull p)).2.1

/-- Shape of a string `v<digits>`: what the trailing-marker parse would
recognise after a dot. -/
def isVDigits (w : PyStr) : Prop :=
  ∃ ds, w = 'v' :: ds ∧ ds ≠ [] ∧ ∀ c ∈ ds, c.isDigit

instance (w : PyStr) : Decidable (isVDigits w) := by
  unfold isVDigits
  match w with
  | [] => exact .isFalse (by rintro ⟨ds, h, -, -⟩; cases h)
  | c :: cs =>
    refine decidable_of_iff (c = 'v' ∧ cs ≠ [] ∧ ∀ x ∈ cs, x.isDigit) ?_
    constructor
    · rintro ⟨rfl, h1, h2⟩; exact ⟨cs, rfl, h1, h2⟩
    · rintro ⟨ds, h, h1, h2⟩; cases h; exact ⟨rfl, h1, h2⟩

/-! ### POD-list resolution (`MDTFFramework.parse_pod_list`,
framework/framework.py lines 84-112, and `MDTFConfigurer.parse_pod_list`,
src/src/configs.py lines 82-109; both share the same selection logic) -/

/-- The registered POD names (`pod_data` keys), the known realm names
(`all_realms`), and the realm index (`pod_realms`: key =
the realm set of the POD, a singleton for a scalar key, several entries
for a composite tuple key; value = POD names under that key).
`parse_pod_list_core` is the selection logic shared by both copies of the
code, before the empty-check. -/
def parse_pod_list_core (pod_data : List PyStr) (all_realms : List PyStr)
    (pod_realms : List (List PyStr × List PyStr)) (args : List PyStr) : List PyStr :=
  if args.contains (chars "example") || args.contains (chars "examples") then
    pod_data.filter (fun p => (chars "example").isPrefixOf p)
  else if args.contains (chars "all") then
    pod_data.filter (fun p => ! (chars "example").isPrefixOf p)
  else
    let realms := args.filter (fun a => all_realms.contains a)
    let rest := args.filter (fun a => ! all_realms.contains a)
    let byRealm := (pod_realms.filter (fun kv => kv.1.all (fun r => realms.contains r))).flatMap
      (fun kv => kv.2)
    let byName := rest.filter (fun a => pod_data.contains a)
    (byRealm ++ byName).filter (fun p => ! (chars "example").isPrefixOf p)

/-- `MDTFFramework.parse_pod_list` (framework/framework.py): on an empty
selection the process terminates via `exit(1)`, i.e. with exit code 1. -/
def parse_pod_list_framework (pod_data : List PyStr) (all_realms : List PyStr)
    (pod_realms : List (List PyStr × List PyStr)) (args : List PyStr) :
    Except Nat (List PyStr) :=
  let l := parse_pod_list_core pod_data all_realms pod_realms args
  if l.isEmpty then .error 1 else .ok l

/-- `MDTFConfigurer.parse_pod_list` (src/src/configs.py): on an empty
selection the process terminates via bare `exit()`, which raises
`SystemExit(None)` and yields exit code 0. -/
def parse_pod_list_src (pod_data : List PyStr) (all_realms : List PyStr)
    (pod_realms : List (List PyStr × List PyStr)) (args : List PyStr) :
    Except Nat (List PyStr) :=
  let l := parse_pod_list_core pod_data all_realms pod_realms args
  if l.isEmpty then .error 0 else .ok l

/-! ### Case-list entry parsing (`MDTFFramework.parse_case` /
`set_case_pod_list`, framework/framework.py lines 132-164; identical in
src/src/configs.py lines 129-161) -/

/-- A Python dict value as it appears in a case-list entry: a string or a
list of strings (the `pod_list`). -/
inductive PyVal
  | s (v : PyStr)
  | l (v : List PyStr)
  deriving DecidableEq, Repr

/-- Python truthiness of such a value. -/
def PyVal.truthy : PyVal → Bool
  | .s v => ! v.isEmpty
  | .l v => ! v.isEmpty

/-- Python `str()` of such a value, as used by `'{}_{}'.format`. -/
def PyVal.fmt : PyVal → PyStr
  | .s v => v
  | .l [] => chars "[]"
  | .l (x :: xs) =>
    chars "['" ++ x ++ xs.foldl (fun acc y => acc ++ chars "', '" ++ y) [] ++ chars "']"

/-- A Python dict, embedded as an insertion-ordered association list with
unique keys maintained by the operations below. -/
abbrev PyDict := List (PyStr × PyVal)

/-- `k in d`. -/
def hasK (d : PyDict) (k : PyStr) : Bool := d.any (fun kv => kv.1 = k)

/-- `d.get(k)` as an `Option`. -/
def dget (d : PyDict) (k : PyStr) : Option PyVal := (d.find? (fun kv => kv.1 = k)).map (·.2)

/-- `d[k] = v`: replace in place when the key exists, else append. -/
def dset (d : PyDict) (k : PyStr) (v : PyVal) : PyDict :=
  if hasK d k then d.map (fun kv => if kv.1 = k then (k, v) else kv) else d ++ [(k, v)]

/-- `d.pop(k)` (the remaining dict). -/
def dpop (d : PyDict) (k : PyStr) : PyDict := d.filter (fun kv => kv.1 ≠ k)

/-- `d.setdefault(k, v)`. -/
def dsetdefault (d : PyDict) (k : PyStr) (v : PyVal) : PyDict :=
  if hasK d k then d else d ++ [(k, v)]

/-- `d.update(c)`. -/
def dupdate (d c : PyDict) : PyDict := c.foldl (fun acc kv => dset acc kv.1 kv.2) d

/-- `MDTFFramework.set_case_pod_list`: the case dict keeps its own
`pod_list` only when the CLI `pods` argument was left at its default and
the case value is truthy; otherwise the globally resolved POD list wins. -/
def set_case_pod_list (globalPods : PyVal) (podsIsDefault : Bool) (d : PyDict) : PyVal :=
  let cur := dget d (chars "pod_list")
  if !podsIsDefault || !((cur.map PyVal.truthy).getD false) then globalPods
  else cur.getD globalPods

/-- `parse_case` lines 134-135: hoist a positional `root_dir` into
`CASE_ROOT_DIR` (`d['CASE_ROOT_DIR'] = d.pop('root_dir')`). -/
def case_rename_root (d0 : PyDict) : PyDict :=
  if !hasK d0 (chars "CASE_ROOT_DIR") && hasK d0 (chars "root_dir") then
    dset (dpop d0 (chars "root_dir")) (chars "CASE_ROOT_DIR")
      ((dget d0 (chars "root_dir")).getD (.s []))
  else d0

/-- `parse_case` lines 136-139: `d.update(cli_d)`, then restore the case
entry's own convention when it was nonempty. -/
def case_merge (d cli_d : PyDict) : PyDict :=
  let caseConv := (dget d (chars "convention")).getD (.s [])
  let d2 := dupdate d cli_d
  if caseConv.truthy then dset d2 (chars "convention") caseConv else d2

/-- `parse_case` lines 145-147: the three `setdefault` calls synthesising
`model`, `experiment` and `CASENAME`. -/
def case_defaults (d : PyDict) : PyDict :=
  let d4 := dsetdefault d (chars "model") ((dget d (chars "convention")).getD (.s []))
  let d5 := dsetdefault d4 (chars "experiment") (.s [])
  dsetdefault d5 (chars "CASENAME")
    (.s (PyVal.fmt ((dget d5 (chars "model")).getD (.s [])) ++
         '_' :: PyVal.fmt ((dget d5 (chars "experiment")).getD (.s []))))

/-- `MDTFFramework.parse_case` (framework/framework.py lines 132-156):
rename `root_dir`, merge the CLI override dict on top of the entry,
restore a truthy case convention, validate, synthesise defaults, attach
the POD list. `none` models the warn-and-skip return. -/
def parse_case (globalPods : PyVal) (podsIsDefault : Bool) (d0 cli_d : PyDict) :
    Option PyDict :=
  let d3 := case_merge (case_rename_root d0) cli_d
  if !(hasK d3 (chars "CASENAME") ||
       (hasK d3 (chars "model") && hasK d3 (chars "experiment"))) then none
  else
    let d6 := case_defaults d3
    if !((dget d6 (chars "FIRSTYR")).map PyVal.truthy).getD false then none
    else if !((dget d6 (chars "LASTYR")).map PyVal.truthy).getD false then none
    else if !((dget d6 (chars "convention")).map PyVal.truthy).getD false then none
    else some (dset d6 (chars "pod_list") (set_case_pod_list globalPods podsIsDefault d6))

/-! ### TempDirManager (framework/configs.py lines 102-136; identical in
src/src/configs.py lines 280-314) -/

/-- Registry of temporary directories plus the trace of directories that
have actually been deleted from disk. -/
structure TempDirState where
  dirs : List PyStr
  removed : List PyStr
  deriving DecidableEq, Repr

/-- `TempDirManager.rm_tempdir`: assert the path is registered, drop it
from the registry (`list.remove` drops the first occurrence), delete the
tree. `none` models the assertion failure. -/
def rm_tempdir (s : TempDirState) (p : PyStr) : Option TempDirState :=
  if s.dirs.contains p then some ⟨s.dirs.erase p, s.removed ++ [p]⟩ else none

/-- The `for d in self._dirs: self.rm_tempdir(d)` loop of
`TempDirManager.cleanup`, with CPython list-iterator semantics: an index
advances by one each step and iteration stops as soon as the index
reaches the current (shrinking) length of the list. -/
def cleanupGo : Nat → Nat → TempDirState → TempDirState
  | 0, _, s => s
  | fuel + 1, i, s =>
    if h : i < s.dirs.length then
      match rm_tempdir s (s.dirs.get ⟨i, h⟩) with
      | some s2 => cleanupGo fuel (i + 1) s2
      | none => s
    else s

/-- `TempDirManager.cleanup`. -/
def cleanup (s : TempDirState) : TempDirState := cleanupGo (s.dirs.length + 1) 0 s

/-! ### VariableTranslator (framework/configs.py lines 139-201;
src/src/configs.py lines 319-374) -/

/-- Modelled from the spec: `util.MultiMap` (framework/util/funcs.py is
absent from the sources; only its unit tests survive). A dict whose
values are coerced to sets: here an association list whose value lists
stand for sets of convention-specific names. -/
abbrev MM := List (PyStr × List PyStr)

/-- Forward lookup `m[k]` of a MultiMap. -/
def MM.getSet (m : MM) (k : PyStr) : Option (List PyStr) :=
  (m.find? (fun kv => kv.1 = k)).map (·.2)

/-- Modelled from the spec: the inverse index of `MultiMap.inverse()` at
one value: the set of keys whose value set contains `v`. -/
def MM.inverseGet (m : MM) (v : PyStr) : List PyStr :=
  (m.filter (fun kv => kv.2.contains v)).map (·.1)

/-- Modelled from the spec: `util.coerce_from_iter` / `util.from_iter`
(funcs.py absent): a one-element collection is unwrapped to its single
element, anything else is returned as the collection itself. -/
def from_iter : List PyStr → PyStr ⊕ List PyStr
  | [x] => .inl x
  | l => .inr l

/-- An axis table (`axes` entry of a fieldlist file): axis name to its
attribute dict. -/
abbrev AxTable := List (PyStr × List (PyStr × PyStr))

/-- One parsed `fieldlist_*.jsonc` file. -/
structure Fieldlist where
  convention_name : List PyStr
  axes : AxTable
  var_names : MM
  units : MM

/-- The translator state: per-convention axis, variable and unit tables. -/
structure VTState where
  axes : List (PyStr × AxTable)
  varTables : List (PyStr × MM)
  units : List (PyStr × MM)

/-- Association-list lookup for the translator tables. -/
def alget {α : Type} (l : List (PyStr × α)) (k : PyStr) : Option α :=
  (l.find? (fun kv => kv.1 = k)).map (·.2)

/-- The hardcoded CF axis table of `VariableTranslator.__init__`. -/
def cfAxes : AxTable :=
  [(chars "lon", [(chars "axis", chars "X"), (chars "MDTF_envvar", chars "lon_coord")]),
   (chars "lat", [(chars "axis", chars "Y"), (chars "MDTF_envvar", chars "lat_coord")]),
   (chars "lev", [(chars "axis", chars "Z"), (chars "MDTF_envvar", chars "lev_coord")]),
   (chars "time", [(chars "axis", chars "T"), (chars "MDTF_envvar", chars "time_coord")])]

/-- The translator state before any file is read: the always-present CF
convention (identity translation, fixed axis table). -/
def vtInit : VTState :=
  ⟨[(chars "CF", cfAxes)], [(chars "CF", [])], [(chars "CF", [])]⟩

/-- Register one convention alias of one file: raise `ConventionError`
(`none`) when the alias already exists in `self.variables`, else append
the three tables of the file under that alias. -/
def regConv (st : VTState) (f : Fieldlist) (conv : PyStr) : Option VTState :=
  if (alget st.varTables conv).isSome then none
  else some ⟨st.axes ++ [(conv, f.axes)], st.varTables ++ [(conv, f.var_names)],
             st.units ++ [(conv, f.units)]⟩

/-- The inner `for conv in coerce_to_iter(d['convention_name'])` loop; an
error carries the translator state at the moment `ConventionError` is
raised. -/
def regAliases (f : Fieldlist) : List PyStr → VTState → Except VTState VTState
  | [], st => .ok st
  | c :: cs, st =>
    match regConv st f c with
    | none => .error st
    | some st2 => regAliases f cs st2

/-- The outer `for f in config_files` loop of
`VariableTranslator.__init__`. -/
def loadVTAux : List Fieldlist → VTState → Except VTState VTState
  | [], st => .ok st
  | f :: fsl, st =>
    match regAliases f f.convention_name st with
    | .error st2 => .error st2
    | .ok st2 => loadVTAux fsl st2

/-- `VariableTranslator.__init__` on a list of fieldlist files. -/
def loadVT (files : List Fieldlist) : Except VTState VTState := loadVTAux files vtInit

/-- Did the translator construction raise `ConventionError`? -/
def isErr {α β : Type} : Except α β → Bool
  | .error _ => true
  | .ok _ => false

/-- The registered convention names, in registration order. -/
def vtKeys (st : VTState) : List PyStr := st.varTables.map Prod.fst

/-- All convention aliases declared by a list of files, in load order. -/
def allAliases (files : List Fieldlist) : List PyStr :=
  files.flatMap (fun f => f.convention_name)

/-- Error kinds of the translation lookups: the `assert` on an unknown
convention, and the propagated `KeyError` on an unknown name. -/
inductive TransErr
  | unknownConvention
  | lookupFailure
  deriving DecidableEq, Repr

/-- `VariableTranslator.toCF` (framework/configs.py lines 175-187;
`to_CF` in src/src/configs.py): identity for CF, otherwise an inverted
lookup in the convention's variable MultiMap, unwrapped by
`coerce_from_iter`. -/
def toCF (vt : VTState) (conv v : PyStr) : Except TransErr (PyStr ⊕ List PyStr) :=
  if conv = chars "CF" then .ok (.inl v)
  else
    match alget vt.varTables conv with
    | none => .error .unknownConvention
    | some m =>
      let ks := MM.inverseGet m v
      if ks.isEmpty then .error .lookupFailure else .ok (from_iter ks)

/-- `VariableTranslator.fromCF` (framework/configs.py lines 189-201;
`from_CF` in src/src/configs.py): identity for CF, otherwise the direct
`get_` lookup in the convention's variable MultiMap. -/
def fromCF (vt : VTState) (conv v : PyStr) : Except TransErr (PyStr ⊕ List PyStr) :=
  if conv = chars "CF" then .ok (.inl v)
  else
    match alget vt.varTables conv with
    | none => .error .unknownConvention
    | some m =>
      match MM.getSet m v with
      | none => .error .lookupFailure
      | some vs => .ok (from_iter vs)

/-! ### `_PathManager.model_paths` (framework/configs.py lines 69-91;
identical logic in src/src/configs.py lines 247-267) -/

/-- The root paths the method reads from the manager. -/
structure PathMgr where
  MODEL_DATA_ROOT : PyStr
  WORKING_DIR : PyStr
  OUTPUT_DIR : PyStr

/-- A case given as a dict: `CASENAME`, `FIRSTYR`, `LASTYR` (already
string-formatted, as `'{}'.format` would render them). -/
structure CaseDict where
  casename : PyStr
  firstyr : PyStr
  lastyr : PyStr

/-- The derived per-case directory paths returned by `model_paths`. -/
structure ModelPathsOut where
  MODEL_DATA_DIR : PyStr
  MODEL_WK_DIR : PyStr
  MODEL_OUT_DIR : PyStr

/-- `_PathManager.model_paths(case, overwrite)` over the filesystem model
`fs`. -/
def model_paths (fs : List PyStr) (pm : PathMgr) (case : CaseDict) (overwrite : Bool) :
    ModelPathsOut :=
  let case_wk_dir := chars "MDTF_" ++ case.casename ++ '_' :: case.firstyr ++ '_' :: case.lastyr
  let mdd := pathJoin pm.MODEL_DATA_ROOT case.casename
  let wk := pathJoin pm.WORKING_DIR case_wk_dir
  let out := pathJoin pm.OUTPUT_DIR case_wk_dir
  if overwrite then ⟨mdd, wk, out⟩
  else
    let bw := bump_version fs wk none [pm.OUTPUT_DIR]
    let bo := bump_version fs out (some bw.2) []
    ⟨mdd, bw.1, bo.1⟩


end MDTF

/-! ## Helper lemmas -/

namespace MDTF

theorem takeWhile_append_of_all {α : Type} {p : α → Bool} {l r : List α}
    (h : ∀ a ∈ l, p a = true) : (l ++ r).takeWhile p = l ++ r.takeWhile p := by
  induction l with
  | nil => simp
  | cons a t ih =>
    have ha : p a = true := h a (List.mem_cons_self a t)
    simp only [List.cons_append, List.takeWhile_cons_of_pos ha]
    rw [ih fun x hx => h x (List.mem_cons_of_mem a hx)]

theorem dropWhile_append_of_all {α : Type} {p : α → Bool} {l r : List α}
    (h : ∀ a ∈ l, p a = true) : (l ++ r).dropWhile p = r.dropWhile p := by
  induction l with
  | nil => simp
  | cons a t ih =>
    have ha : p a = true := h a (List.mem_cons_self a t)
    simp only [List.cons_append, List.dropWhile_cons_of_pos ha]
    exact ih fun x hx => h x (List.mem_cons_of_mem a hx)

theorem takeWhile_eq_self_of_all {α : Type} {p : α → Bool} {l : List α}
    (h : ∀ a ∈ l, p a = true) : l.takeWhile p = l := by
  have := takeWhile_append_of_all (r := ([] : List α)) h
  simpa using this

theorem dropWhile_append_of_ne {α : Type} {p : α → Bool} {l r : List α}
    (h : l.dropWhile p ≠ []) : (l ++ r).dropWhile p = l.dropWhile p ++ r := by
  induction l with
  | nil => simp at h
  | cons a t ih =>
    by_cases ha : p a = true
    · simp only [List.cons_append, List.dropWhile_cons_of_pos ha] at *
      exact ih h
    · have ha2 : ¬ p a := by simpa using ha
      simp [List.dropWhile_cons_of_neg ha2]

theorem takeWhile_append_of_ne {α : Type} {p : α → Bool} {l r : List α}
    (h : l.dropWhile p ≠ []) : (l ++ r).takeWhile p = l.takeWhile p := by
  induction l with
  | nil => simp at h
  | cons a t ih =>
    by_cases ha : p a = true
    · simp only [List.cons_append, List.dropWhile_cons_of_pos ha] at h
      simp only [List.cons_append, List.takeWhile_cons_of_pos ha]
      rw [ih h]
    · have ha2 : ¬ p a := by simpa using ha
      simp [List.takeWhile_cons_of_neg ha2]

theorem mem_of_mem_takeWhile {α : Type} {p : α → Bool} {l : List α} {a : α}
    (h : a ∈ l.takeWhile p) : p a = true := by
  induction l with
  | nil => simp at h
  | cons b t ih =>
    by_cases hb : p b = true
    · rw [List.takeWhile_cons_of_pos hb] at h
      rcases List.mem_cons.mp h with rfl | h2
      · exact hb
      · exact ih h2
    · rw [List.takeWhile_cons_of_neg (by simpa using hb)] at h
      simp at h

theorem dropWhile_head_not {α : Type} {p : α → Bool} {l : List α} {a : α} {t : List α}
    (h : l.dropWhile p = a :: t) : p a = false := by
  induction l with
  | nil => simp at h
  | cons b r ih =>
    by_cases hb : p b = true
    · rw [List.dropWhile_cons_of_pos hb] at h; exact ih h
    · rw [List.dropWhile_cons_of_neg (by simpa using hb)] at h
      cases h; simpa using hb

/-! ### `rstripSlash` lemmas -/

theorem rstripSlash_append_all {x y : PyStr} (h : ∀ c ∈ y, c = '/') :
    rstripSlash (x ++ y) = rstripSlash x := by
  unfold rstripSlash
  rw [List.reverse_append, dropWhile_append_of_all]
  intro a ha
  simpa using h a (List.mem_reverse.mp ha)

theorem rstripSlash_append_ne {x y : PyStr} (h : rstripSlash y ≠ []) :
    rstripSlash (x ++ y) = x ++ rstripSlash y := by
  unfold rstripSlash at *
  rw [List.reverse_append, dropWhile_append_of_ne, List.reverse_append, List.reverse_reverse]
  intro he
  exact h (by rw [he]; simp)

theorem rstripSlash_ne_of_mem {y : PyStr} {c : Char} (hc : c ∈ y) (hne : c ≠ '/') :
    rstripSlash y ≠ [] := by
  unfold rstripSlash
  intro h
  have h2 : y.reverse.dropWhile (fun c => decide (c = '/')) = [] := by
    have := congrArg List.reverse h
    simpa using this
  have hm : c ∈ y.reverse := List.mem_reverse.mpr hc
  rw [← List.takeWhile_append_dropWhile (p := fun c : Char => decide (c = '/'))
    (l := y.reverse), h2, List.append_nil] at hm
  have := mem_of_mem_takeWhile hm
  simp [hne] at this

theorem rstripSlash_append_last {x y : PyStr} {c : Char}
    (hx : x.getLast? = some c) (hc : c ≠ '/') :
    rstripSlash (x ++ y) = x ++ rstripSlash y := by
  by_cases hy : rstripSlash y = []
  · have hall : ∀ d ∈ y, d = '/' := by
      intro d hd
      by_contra hne
      exact rstripSlash_ne_of_mem hd hne hy
    rw [rstripSlash_append_all hall, hy, List.append_nil]
    have hx2 : x ≠ [] := by rintro rfl; simp at hx
    obtain ⟨x0, rfl⟩ := List.getLast?_eq_some_iff.mp hx
    rw [rstripSlash_append_ne]
    · simp [rstripSlash, List.dropWhile_cons_of_neg, hc]
    · simp [rstripSlash, List.dropWhile_cons_of_neg, hc]
  · exact rstripSlash_append_ne hy

theorem rstripSlash_getLast {y : PyStr} (h : rstripSlash y ≠ []) :
    ∃ c, (rstripSlash y).getLast? = some c ∧ c ≠ '/' := by
  unfold rstripSlash at *
  rcases hd : y.reverse.dropWhile (fun c => decide (c = '/')) with _ | ⟨a, t⟩
  · rw [hd] at h; simp at h
  · refine ⟨a, ?_, ?_⟩
    · simp
    · have := dropWhile_head_not hd
      simpa using this

theorem rstripSlash_eq_self {y : PyStr} {c : Char} (hy : y.getLast? = some c)
    (hc : c ≠ '/') : rstripSlash y = y := by
  obtain ⟨x0, rfl⟩ := List.getLast?_eq_some_iff.mp hy
  unfold rstripSlash
  rw [List.reverse_append, List.reverse_singleton, List.singleton_append,
    List.dropWhile_cons_of_neg (by simpa using hc)]
  simp

theorem rstripSlash_nil : rstripSlash [] = [] := rfl

/-! ### `lastComp` lemmas -/

theorem lastComp_no_slash (p : PyStr) : '/' ∉ lastComp p := by
  unfold lastComp
  intro h
  have := mem_of_mem_takeWhile (List.mem_reverse.mp h)
  simp at this

theorem lastComp_of_no_slash {p : PyStr} (h : '/' ∉ p) : lastComp p = p := by
  unfold lastComp
  rw [takeWhile_eq_self_of_all, List.reverse_reverse]
  intro a ha
  have : a ∈ p := List.mem_reverse.mp ha
  simp only [decide_eq_true_eq]
  rintro rfl
  exact h this

theorem lastComp_append_of_slash {x y : PyStr} (h : '/' ∈ y) :
    lastComp (x ++ y) = lastComp y := by
  unfold lastComp
  rw [List.reverse_append, takeWhile_append_of_ne]
  intro he
  have hm : ('/' : Char) ∈ y.reverse := List.mem_reverse.mpr h
  rw [← List.takeWhile_append_dropWhile (p := fun c : Char => decide (c ≠ '/'))
    (l := y.reverse), he, List.append_nil] at hm
  have := mem_of_mem_takeWhile hm
  simp at this

theorem lastComp_append_boundary {x y : PyStr} (hy : '/' ∉ y)
    (hx : x = [] ∨ x.getLast? = some '/') : lastComp (x ++ y) = y := by
  rcases hx with rfl | hx
  · simpa using lastComp_of_no_slash hy
  · obtain ⟨x0, rfl⟩ := List.getLast?_eq_some_iff.mp hx
    unfold lastComp
    have hy2 : ∀ a ∈ y.reverse, (fun c : Char => decide (c ≠ '/')) a = true := by
      intro a ha
      have : a ∈ y := List.mem_reverse.mp ha
      simp only [decide_eq_true_eq]
      rintro rfl
      exact hy this
    have hz : List.takeWhile (fun c : Char => decide (c ≠ '/')) ((x0 ++ ['/']).reverse) = [] := by
      rw [List.reverse_append, List.reverse_singleton, List.singleton_append,
        List.takeWhile_cons_of_neg (by simp)]
    rw [List.reverse_append, takeWhile_append_of_all hy2, List.reverse_append, hz]
    simp

/-! ### `rawHead` / `pathSplit` / `pathJoin` lemmas -/

theorem rawHead_append_lastComp (p : PyStr) : rawHead p ++ lastComp p = p := by
  unfold rawHead lastComp
  rw [← List.reverse_append, List.takeWhile_append_dropWhile, List.reverse_reverse]

theorem rawHead_getLast {p : PyStr} (h : rawHead p ≠ []) :
    (rawHead p).getLast? = some '/' := by
  unfold rawHead at *
  rcases hd : p.reverse.dropWhile (fun c => decide (c ≠ '/')) with _ | ⟨a, t⟩
  · rw [hd] at h; simp at h
  · have ha : a = '/' := by simpa using dropWhile_head_not hd
    subst ha
    simp

theorem pathSplit_fst (p : PyStr) :
    (pathSplit p).1 = if rawHead p ≠ [] ∧ (rawHead p).any (fun c => c ≠ '/')
      then rstripSlash (rawHead p) else rawHead p := rfl

theorem pathSplit_snd (p : PyStr) : (pathSplit p).2 = lastComp p := rfl

/-- The head returned by `pathSplit` is clean: empty, all slashes, or
without a trailing slash. -/
theorem pathSplit_fst_clean (p : PyStr) :
    (pathSplit p).1 = [] ∨ (∀ c ∈ (pathSplit p).1, c = '/') ∨
      (∃ c, ((pathSplit p).1).getLast? = some c ∧ c ≠ '/') := by
  rw [pathSplit_fst]
  by_cases h : rawHead p ≠ [] ∧ (rawHead p).any (fun c => c ≠ '/')
  · rw [if_pos h]
    by_cases he : rstripSlash (rawHead p) = []
    · exact Or.inl he
    · exact Or.inr (Or.inr (rstripSlash_getLast he))
  · rw [if_neg h]
    by_cases hne : rawHead p = []
    · exact Or.inl hne
    · refine Or.inr (Or.inl ?_)
      intro d hd
      by_contra hne2
      exact h ⟨hne, List.any_eq_true.mpr ⟨d, hd, by simpa using hne2⟩⟩

theorem pathJoin_of_head_ne {a b : PyStr} (hb : b.head? ≠ some '/') :
    pathJoin a b = (if a = [] then [] else if a.getLast? = some '/' then a else a ++ ['/']) ++ b := by
  unfold pathJoin
  rw [if_neg hb]
  by_cases ha : a = []
  · subst ha; simp
  · by_cases hl : a.getLast? = some '/'
    · rw [if_pos (Or.inr hl), if_neg ha, if_pos hl]
    · rw [if_neg ?_, if_neg ha, if_neg hl]
      · simp
      · rintro (h | h)
        · exact ha h
        · exact hl h

theorem pathJoin_eq_joinPre {a b : PyStr} (hb : b.head? ≠ some '/') :
    pathJoin a b = joinPre a ++ b := pathJoin_of_head_ne hb

theorem joinPre_getLast (a : PyStr) : joinPre a = [] ∨ (joinPre a).getLast? = some '/' := by
  unfold joinPre
  by_cases ha : a = []
  · rw [if_pos ha]; exact Or.inl rfl
  · rw [if_neg ha]
    by_cases hl : a.getLast? = some '/'
    · rw [if_pos hl]; exact Or.inr hl
    · rw [if_neg hl]
      exact Or.inr (by simp)

/-! ### Decimal digit lemmas -/

theorem digitChar_isDigit (d : Nat) : (digitChar d).isDigit := by
  unfold digitChar
  split <;> decide

theorem digitChar_toNat {d : Nat} (h : d < 10) : (digitChar d).toNat - 48 = d := by
  interval_cases d <;> decide

theorem natDigitsAux_ne_nil {fuel n : Nat} (h : n < fuel) : natDigitsAux fuel n ≠ [] := by
  cases fuel with
  | zero => omega
  | succ m =>
    unfold natDigitsAux
    by_cases h2 : n < 10
    · rw [if_pos h2]; simp
    · rw [if_neg h2]; simp

theorem natDigits_ne_nil (n : Nat) : natDigits n ≠ [] :=
  natDigitsAux_ne_nil (by omega)

theorem natDigitsAux_all_digit : ∀ (fuel n : Nat), n < fuel →
    ∀ c ∈ natDigitsAux fuel n, c.isDigit := by
  intro fuel
  induction fuel with
  | zero => intro n h; omega
  | succ m ih =>
    intro n h c hc
    unfold natDigitsAux at hc
    by_cases h2 : n < 10
    · rw [if_pos h2] at hc
      simp at hc
      subst hc
      exact digitChar_isDigit _
    · rw [if_neg h2] at hc
      rcases List.mem_append.mp hc with h1 | h1
      · have hlt : n / 10 < m := by
          have h3 : n / 10 < n := Nat.div_lt_self (by omega) (by omega)
          omega
        exact ih (n / 10) hlt c h1
      · simp at h1
        subst h1
        exact digitChar_isDigit _

theorem natDigits_all_digit (n : Nat) : ∀ c ∈ natDigits n, c.isDigit :=
  natDigitsAux_all_digit (n + 1) n (by omega)

theorem digitsToNat_append (l : PyStr) (c : Char) :
    digitsToNat (l ++ [c]) = 10 * digitsToNat l + (c.toNat - 48) := by
  simp [digitsToNat, List.foldl_append]

theorem digitsToNat_natDigitsAux : ∀ (fuel n : Nat), n < fuel →
    digitsToNat (natDigitsAux fuel n) = n := by
  intro fuel
  induction fuel with
  | zero => intro n h; omega
  | succ m ih =>
    intro n h
    unfold natDigitsAux
    by_cases h2 : n < 10
    · rw [if_pos h2]
      have h1 : digitsToNat [digitChar (n % 10)] = (digitChar (n % 10)).toNat - 48 := by
        simp [digitsToNat]
      rw [h1, digitChar_toNat (Nat.mod_lt _ (by omega)), Nat.mod_eq_of_lt h2]
    · have hlt : n / 10 < m := by
        have h3 : n / 10 < n := Nat.div_lt_self (by omega) (by omega)
        omega
      rw [if_neg h2, digitsToNat_append, ih (n / 10) hlt,
        digitChar_toNat (Nat.mod_lt _ (by omega))]
      omega

theorem digitsToNat_natDigits (n : Nat) : digitsToNat (natDigits n) = n :=
  digitsToNat_natDigitsAux (n + 1) n (by omega)

theorem isDigit_ne_slash {c : Char} (h : c.isDigit) : c ≠ '/' := by
  rintro rfl; exact absurd h (by decide)

theorem isDigit_ne_dot {c : Char} (h : c.isDigit) : c ≠ '.' := by
  rintro rfl; exact absurd h (by decide)

theorem isDigit_ne_v {c : Char} (h : c.isDigit) : c ≠ 'v' := by
  rintro rfl; exact absurd h (by decide)

/-! ### `splitVersion` lemmas -/

theorem splitVersion_marker {b ds : PyStr} (h1 : ds ≠ []) (h2 : ∀ c ∈ ds, c.isDigit) :
    splitVersion (b ++ '.' :: 'v' :: ds) = (b, some (digitsToNat ds)) := by
  obtain ⟨t, a, rfl⟩ : ∃ t a, ds = t ++ [a] := by
    rcases List.eq_nil_or_concat ds with h | ⟨t, a, h⟩
    · exact absurd h h1
    · exact ⟨t, a, by simpa using h⟩
  have hall : ∀ x ∈ (t ++ [a]).reverse, Char.isDigit x = true :=
    fun x hx => h2 x (List.mem_reverse.mp hx)
  have hr : (b ++ '.' :: 'v' :: (t ++ [a])).reverse
      = (t ++ [a]).reverse ++ 'v' :: '.' :: b.reverse := by
    simp
  have htw : ((t ++ [a]).reverse ++ 'v' :: '.' :: b.reverse).takeWhile Char.isDigit
      = a :: t.reverse := by
    rw [takeWhile_append_of_all hall, List.takeWhile_cons_of_neg (by decide)]
    simp
  have hdw : ((t ++ [a]).reverse ++ 'v' :: '.' :: b.reverse).dropWhile Char.isDigit
      = 'v' :: '.' :: b.reverse := by
    rw [dropWhile_append_of_all hall, List.dropWhile_cons_of_neg (by decide)]
  unfold splitVersion
  simp only [hr]
  rw [htw, hdw]
  simp

theorem splitVersion_cases (f : PyStr) :
    splitVersion f = (f, none) ∨
      ∃ b ds, ds ≠ [] ∧ (∀ c ∈ ds, c.isDigit) ∧ f = b ++ '.' :: 'v' :: ds ∧
        splitVersion f = (b, some (digitsToNat ds)) := by
  have hsplit := List.takeWhile_append_dropWhile (p := Char.isDigit) (l := f.reverse)
  rcases h : splitVersion f with ⟨b1, v1⟩
  unfold splitVersion at h
  dsimp only at h
  split at h
  · left
    rw [← h]
  · next a t rest2 heq1 heq2 =>
    right
    rw [heq1, heq2] at hsplit
    refine ⟨rest2.reverse, (a :: t).reverse, by simp, ?_, ?_, ?_⟩
    · intro c hc
      exact mem_of_mem_takeWhile (h := by rw [heq1]; exact List.mem_reverse.mp hc)
    · have hf : f = f.reverse.reverse := by simp
      rw [hf, ← hsplit]
      simp
    · rw [← h, heq1]
  · left
    rw [← h]

theorem splitVersion_base_of_none {f x : PyStr} (h : splitVersion f = (x, none)) : x = f := by
  rcases splitVersion_cases f with h2 | ⟨b, ds, -, -, -, h2⟩ <;> rw [h2] at h
  · injection h with h3 h4
    exact h3.symm
  · simp at h

/-- A marker-suffixed string is never classified as versionless. -/
theorem splitVersion_ne_none {b ds : PyStr} (h1 : ds ≠ []) (h2 : ∀ c ∈ ds, c.isDigit) :
    splitVersion (b ++ '.' :: 'v' :: ds) ≠ (b ++ '.' :: 'v' :: ds, none) := by
  rw [splitVersion_marker h1 h2]
  intro h
  injection h with h3 h4
  simp at h4

/-! ### `splitExt` lemmas -/

theorem splitExt_append {b w : PyStr} (hw : '.' ∉ w) (hb : ∃ c ∈ b, c ≠ '.') :
    splitExt (b ++ '.' :: w) = (b, '.' :: w) := by
  have hwall : ∀ x ∈ w.reverse, (fun c : Char => decide (c ≠ '.')) x = true := by
    intro x hx
    simp only [decide_eq_true_eq]
    rintro rfl
    exact hw (List.mem_reverse.mp hx)
  have hr : (b ++ '.' :: w).reverse = w.reverse ++ '.' :: b.reverse := by simp
  have htw : ((b ++ '.' :: w).reverse).takeWhile (fun c => decide (c ≠ '.')) = w.reverse := by
    rw [hr, takeWhile_append_of_all hwall, List.takeWhile_cons_of_neg (by simp)]
    simp
  have hlen : w.reverse.length ≠ (b ++ '.' :: w).length := by
    simp
    omega
  have hbase : (b ++ '.' :: w).take ((b ++ '.' :: w).length - w.reverse.length - 1) = b := by
    have : (b ++ '.' :: w).length - w.reverse.length - 1 = b.length := by
      simp
      omega
    rw [this]
    rw [List.take_append_eq_append_take, List.take_length]
    simp
  unfold splitExt
  dsimp only
  rw [htw, if_neg hlen, hbase, if_pos]
  · simp
  · obtain ⟨c, hc1, hc2⟩ := hb
    exact List.any_eq_true.mpr ⟨c, hc1, by simpa using hc2⟩

theorem splitExt_cases (f : PyStr) :
    splitExt f = (f, []) ∨
      ∃ b w, '.' ∉ w ∧ f = b ++ '.' :: w ∧ (∃ c ∈ b, c ≠ '.') ∧
        splitExt f = (b, '.' :: w) := by
  have hsplit := List.takeWhile_append_dropWhile (p := fun c : Char => decide (c ≠ '.'))
    (l := f.reverse)
  rcases h : splitExt f with ⟨b1, e1⟩
  unfold splitExt at h
  dsimp only at h
  split at h
  · left
    rw [← h]
  · next hlen =>
    rcases hdw : f.reverse.dropWhile (fun c => decide (c ≠ '.')) with _ | ⟨c0, dw1⟩
    · exfalso
      rw [hdw, List.append_nil] at hsplit
      have := congrArg List.length hsplit
      simp at this
      exact hlen (by simpa using this)
    · have hc0 : c0 = '.' := by simpa using dropWhile_head_not hdw
      subst hc0
      rw [hdw] at hsplit
      have hf : f = dw1.reverse ++ '.' ::
          (f.reverse.takeWhile (fun c => decide (c ≠ '.'))).reverse := by
        have := congrArg List.reverse hsplit
        simpa using this.symm
      have hwnd : '.' ∉ (f.reverse.takeWhile (fun c => decide (c ≠ '.'))).reverse := by
        intro hm
        have := mem_of_mem_takeWhile (List.mem_reverse.mp hm)
        simp at this
      have hbase : f.take (f.length -
          (f.reverse.takeWhile (fun c => decide (c ≠ '.'))).length - 1) = dw1.reverse := by
        have hlen2 : f.length -
            (f.reverse.takeWhile (fun c => decide (c ≠ '.'))).length - 1 = dw1.reverse.length := by
          have := congrArg List.length hf
          simp at this ⊢
          omega
        rw [hlen2, hf]
        rw [List.take_append_eq_append_take, List.take_length]
        simp
      rw [hbase] at h
      split at h
      · next hany =>
        right
        refine ⟨dw1.reverse, (f.reverse.takeWhile (fun c => decide (c ≠ '.'))).reverse,
          hwnd, by simpa using hf, ?_, by rw [← h]⟩
        obtain ⟨c, hc1, hc2⟩ := List.any_eq_true.mp hany
        exact ⟨c, hc1, by simpa using hc2⟩
      · left
        rw [← h]

/-! ### `parseFile` lemmas -/

/-- The single structural fact used everywhere about the two-phase parse:
the returned triple reconstructs the filename, and the extension is empty
or a dot followed by a dot-free string that is not itself of marker
shape. -/
theorem parseFile_spec (f : PyStr) :
    ∃ b v e, parseFile f = (b, v, e) ∧
      (e = [] ∨ ∃ w, e = '.' :: w ∧ '.' ∉ w ∧ ¬ isVDigits w) ∧
      ((v = none ∧ b ++ e = f) ∨
        ∃ n ds, v = some n ∧ ds ≠ [] ∧ (∀ c ∈ ds, c.isDigit) ∧ digitsToNat ds = n ∧
          f = (b ++ '.' :: 'v' :: ds) ++ e) := by
  rcases splitVersion_cases f with h1 | ⟨b0, ds, hds1, hds2, hf, h1⟩
  · rcases splitExt_cases f with h2 | ⟨b2, w, hw, hf, hb2, h2⟩
    · refine ⟨f, none, [], ?_, Or.inl rfl, Or.inl ⟨rfl, by simp⟩⟩
      unfold parseFile
      rw [h1]
      dsimp only
      rw [h2]
      dsimp only
      rw [h1]
    · have hnv : ¬ isVDigits w := by
        rintro ⟨ds, rfl, hds1, hds2⟩
        exact splitVersion_ne_none hds1 hds2 (hf ▸ h1)
      rcases splitVersion_cases b2 with h3 | ⟨b3, ds3, hds31, hds32, hb2e, h3⟩
      · refine ⟨b2, none, '.' :: w, ?_, Or.inr ⟨w, rfl, hw, hnv⟩, Or.inl ⟨rfl, hf.symm⟩⟩
        unfold parseFile
        rw [h1]
        dsimp only
        rw [h2]
        dsimp only
        rw [h3]
      · refine ⟨b3, some (digitsToNat ds3), '.' :: w, ?_,
          Or.inr ⟨w, rfl, hw, hnv⟩,
          Or.inr ⟨digitsToNat ds3, ds3, rfl, hds31, hds32, rfl, by rw [hf, hb2e]⟩⟩
        unfold parseFile
        rw [h1]
        dsimp only
        rw [h2]
        dsimp only
        rw [h3]
  · refine ⟨b0, some (digitsToNat ds), [], ?_, Or.inl rfl,
      Or.inr ⟨digitsToNat ds, ds, rfl, hds1, hds2, rfl, by rw [hf]; simp⟩⟩
    unfold parseFile
    rw [h1]

/-- Forward computation: parse of a marker-suffixed name with no
extension. -/
theorem parseFile_marker {b ds : PyStr} (h1 : ds ≠ []) (h2 : ∀ c ∈ ds, c.isDigit) :
    parseFile (b ++ '.' :: 'v' :: ds) = (b, some (digitsToNat ds), []) := by
  unfold parseFile
  rw [splitVersion_marker h1 h2]

/-- A list is a suffix of the tail when it is a suffix of a cons and
short enough. -/
theorem suffix_cons_drop {l1 l2 : PyStr} {a : Char} (h : l1 <:+ a :: l2)
    (hl : l1.length ≤ l2.length) : l1 <:+ l2 := by
  obtain ⟨pre, hpre⟩ := h
  cases pre with
  | nil =>
    rw [List.nil_append] at hpre
    have := congrArg List.length hpre
    simp at this
    omega
  | cons b0 pre2 =>
    rw [List.cons_append] at hpre
    injection hpre with h1 h2
    exact ⟨pre2, h2⟩

/-- When the filename has the shape `B ++ "." ++ w` with `w` dot-free and
not of the form `v<digits>`, the trailing-marker regex does not match. -/
theorem splitVersion_ext_none {B w : PyStr} (hw : '.' ∉ w) (hnv : ¬ isVDigits w) :
    splitVersion (B ++ '.' :: w) = (B ++ '.' :: w, none) := by
  rcases splitVersion_cases (B ++ '.' :: w) with h | ⟨b4, ds4, hds1, hds2, hf4, h⟩
  · exact h
  · exfalso
    have hs1 : ('.' :: w) <:+ (B ++ '.' :: w) := ⟨B, rfl⟩
    have hs2 : ('.' :: 'v' :: ds4) <:+ (B ++ '.' :: w) := by
      rw [hf4]; exact ⟨b4, rfl⟩
    rcases Nat.le_total ('.' :: w).length ('.' :: 'v' :: ds4).length with hle | hle
    · have hsuf := List.suffix_of_suffix_length_le hs1 hs2 hle
      by_cases heq : ('.' :: w).length = ('.' :: 'v' :: ds4).length
      · have h3 := hsuf.eq_of_length heq
        injection h3 with h4 h5
        exact hnv ⟨ds4, h5, hds1, hds2⟩
      · have hlt : ('.' :: w).length ≤ ('v' :: ds4).length := by
          simp at hle heq ⊢
          omega
        have h6 := suffix_cons_drop hsuf (by simpa using hlt)
        have hmem : ('.' : Char) ∈ 'v' :: ds4 := h6.subset (List.mem_cons_self _ _)
        rcases List.mem_cons.mp hmem with h7 | h7
        · exact absurd h7 (by decide)
        · exact isDigit_ne_dot (hds2 _ h7) rfl
    · have hsuf := List.suffix_of_suffix_length_le hs2 hs1 hle
      by_cases heq : ('.' :: 'v' :: ds4).length = ('.' :: w).length
      · have h3 := hsuf.eq_of_length heq
        injection h3 with h4 h5
        exact hnv ⟨ds4, h5.symm, hds1, hds2⟩
      · have hlt : ('.' :: 'v' :: ds4).length ≤ w.length := by
          simp at hle heq ⊢
          omega
        have h6 := suffix_cons_drop hsuf hlt
        exact hw (h6.subset (List.mem_cons_self _ _))

/-- Forward computation: parse of a marker-then-extension name. -/
theorem parseFile_marker_ext {b ds w : PyStr} (h1 : ds ≠ []) (h2 : ∀ c ∈ ds, c.isDigit)
    (hw : '.' ∉ w) (hnv : ¬ isVDigits w) :
    parseFile (b ++ '.' :: 'v' :: ds ++ '.' :: w) = (b, some (digitsToNat ds), '.' :: w) := by
  have hsv : splitVersion ((b ++ '.' :: 'v' :: ds) ++ '.' :: w)
      = ((b ++ '.' :: 'v' :: ds) ++ '.' :: w, none) := splitVersion_ext_none hw hnv
  have hre : b ++ '.' :: 'v' :: ds ++ '.' :: w = (b ++ '.' :: 'v' :: ds) ++ '.' :: w := by simp
  unfold parseFile
  rw [hre, hsv]
  dsimp only
  rw [splitExt_append hw ⟨'v', by simp, by decide⟩]
  dsimp only
  rw [splitVersion_marker h1 h2]

/-! ### `bump_version` unfolding and probe lemmas -/

theorem bump_version_some {path p sep d f0 b e : PyStr} {ov : Option Nat}
    (fs extra : List PyStr) (k : Nat)
    (h1 : stripSep path = (p, sep)) (h2 : pathSplit p = (d, f0))
    (h3 : parseFile f0 = (b, ov, e)) :
    bump_version fs path (some k) extra = (reassemble d b k e sep, k) := by
  unfold bump_version
  rw [h1]
  dsimp only
  rw [h2]
  dsimp only
  rw [h3]

theorem bump_version_none {path p sep d f0 b e : PyStr} {ov : Option Nat}
    (fs extra : List PyStr)
    (h1 : stripSep path = (p, sep)) (h2 : pathSplit p = (d, f0))
    (h3 : parseFile f0 = (b, ov, e)) :
    bump_version fs path none extra =
      (reassemble d b (probe fs (extra ++ [d]) b e sep (fs.length + 1) (ov.getD 0)) e sep,
        probe fs (extra ++ [d]) b e sep (fs.length + 1) (ov.getD 0)) := by
  unfold bump_version
  rw [h1]
  dsimp only
  rw [h2]
  dsimp only
  rw [h3]

/-- The probe loop returns the least collision-free version at or above
its start, provided one exists within its step bound. -/
theorem probe_min (fs dirs : List PyStr) (f e sep : PyStr) :
    ∀ (fuel v : Nat), (∃ k, k < fuel ∧ bumpFree fs dirs f (v + k) e sep) →
      bumpFree fs dirs f (probe fs dirs f e sep fuel v) e sep ∧
      v ≤ probe fs dirs f e sep fuel v ∧
      ∀ w, v ≤ w → w < probe fs dirs f e sep fuel v → ¬ bumpFree fs dirs f w e sep := by
  intro fuel
  induction fuel with
  | zero =>
    rintro v ⟨k, hk, -⟩
    omega
  | succ n ih =>
    rintro v ⟨k, hk, hfree⟩
    by_cases hv : pathExistsAny fs dirs f v e sep
    · have hk0 : k ≠ 0 := by
        rintro rfl
        rw [Nat.add_zero] at hfree
        simp [bumpFree, hv] at hfree
      have hfree2 : bumpFree fs dirs f (v + 1 + (k - 1)) e sep := by
        have hvk : v + 1 + (k - 1) = v + k := by omega
        rw [hvk]
        exact hfree
      have hrec := ih (v + 1) ⟨k - 1, by omega, hfree2⟩
      unfold probe
      rw [if_pos hv]
      refine ⟨hrec.1, by omega, ?_⟩
      intro w hw1 hw2
      rcases Nat.eq_or_lt_of_le hw1 with rfl | hlt
      · simp [bumpFree, hv]
      · exact hrec.2.2 w hlt hw2
    · unfold probe
      rw [if_neg hv]
      refine ⟨by simp [bumpFree, hv], Nat.le_refl v, ?_⟩
      intro w hw1 hw2
      exact absurd hw2 (by omega)

/-- `pathSplit` inverts `pathJoin` on a clean directory and a nonempty
slash-free filename. -/
theorem pathSplit_join {d F : PyStr} (hF1 : '/' ∉ F) (hF2 : F ≠ [])
    (hd : d = [] ∨ (∀ c ∈ d, c = '/') ∨ ∃ c, d.getLast? = some c ∧ c ≠ '/') :
    pathSplit (pathJoin d F) = (d, F) := by
  have hFhead : F.head? ≠ some '/' := by
    intro h
    rcases F with _ | ⟨c, t⟩
    · simp at h
    · simp at h
      subst h
      exact hF1 (List.mem_cons_self _ _)
  have hFall : ∀ x ∈ F.reverse, (fun c : Char => decide (c ≠ '/')) x = true := by
    intro x hx
    simp only [decide_eq_true_eq]
    rintro rfl
    exact hF1 (List.mem_reverse.mp hx)
  rcases hd with rfl | hd2 | ⟨c, hc1, hc2⟩
  · have hJ : pathJoin [] F = F := by
      unfold pathJoin
      rw [if_neg hFhead, if_pos (Or.inl rfl)]
      simp
    rw [hJ]
    have hdw : F.reverse.dropWhile (fun c : Char => decide (c ≠ '/')) = [] := by
      have := dropWhile_append_of_all hFall (r := ([] : PyStr))
      simpa using this
    have htw : F.reverse.takeWhile (fun c : Char => decide (c ≠ '/')) = F.reverse :=
      takeWhile_eq_self_of_all hFall
    unfold pathSplit rawHead lastComp
    dsimp only
    rw [hdw, htw]
    simp
  · by_cases hdn : d = []
    · subst hdn
      have hJ : pathJoin [] F = F := by
        unfold pathJoin
        rw [if_neg hFhead, if_pos (Or.inl rfl)]
        simp
      rw [hJ]
      have hdw : F.reverse.dropWhile (fun c : Char => decide (c ≠ '/')) = [] := by
        have := dropWhile_append_of_all hFall (r := ([] : PyStr))
        simpa using this
      have htw : F.reverse.takeWhile (fun c : Char => decide (c ≠ '/')) = F.reverse :=
        takeWhile_eq_self_of_all hFall
      unfold pathSplit rawHead lastComp
      dsimp only
      rw [hdw, htw]
      simp
    · have hdl : d.getLast? = some '/' := by
        rcases List.eq_nil_or_concat d with h | ⟨t, c, h⟩
        · exact absurd h hdn
        · have hc : c = '/' := hd2 c (by rw [h]; simp [List.concat_eq_append])
          rw [h, List.concat_eq_append, hc]
          exact List.getLast?_concat _
      have hJ : pathJoin d F = d ++ F := by
        unfold pathJoin
        rw [if_neg hFhead, if_pos (Or.inr hdl)]
      rw [hJ]
      have hdd : d.reverse.dropWhile (fun c : Char => decide (c ≠ '/')) = d.reverse := by
        rcases hrd : d.reverse with _ | ⟨c0, t0⟩
        · simp
        · have hc0 : c0 = '/' := hd2 c0 (List.mem_reverse.mp (by rw [hrd]; simp))
          subst hc0
          rw [List.dropWhile_cons_of_neg (by simp)]
      have htd : d.reverse.takeWhile (fun c : Char => decide (c ≠ '/')) = [] := by
        rcases hrd : d.reverse with _ | ⟨c0, t0⟩
        · simp
        · have hc0 : c0 = '/' := hd2 c0 (List.mem_reverse.mp (by rw [hrd]; simp))
          subst hc0
          rw [List.takeWhile_cons_of_neg (by simp)]
      have hraw : rawHead (d ++ F) = d := by
        unfold rawHead
        rw [List.reverse_append, dropWhile_append_of_all hFall, hdd]
        simp
      have hlc : lastComp (d ++ F) = F := by
        unfold lastComp
        rw [List.reverse_append, takeWhile_append_of_all hFall, htd]
        simp
      have hcond : ¬(d ≠ [] ∧ d.any (fun c => decide (c ≠ '/')) = true) := by
        rintro ⟨-, hcon⟩
        obtain ⟨x, hx1, hx2⟩ := List.any_eq_true.mp hcon
        have := hd2 x hx1
        simp [this] at hx2
      unfold pathSplit
      dsimp only
      rw [hraw, hlc, if_neg hcond]
  · have hdn : d ≠ [] := by
      rintro rfl
      simp at hc1
    have hJ : pathJoin d F = d ++ '/' :: F := by
      unfold pathJoin
      rw [if_neg hFhead, if_neg]
      rintro (h | h)
      · exact hdn h
      · rw [hc1] at h
        injection h with h
        exact hc2 h
    rw [hJ]
    have hraw : rawHead (d ++ '/' :: F) = d ++ ['/'] := by
      unfold rawHead
      have : (d ++ '/' :: F).reverse = F.reverse ++ '/' :: d.reverse := by simp
      rw [this, dropWhile_append_of_all hFall, List.dropWhile_cons_of_neg (by simp)]
      simp
    have hlc : lastComp (d ++ '/' :: F) = F := by
      unfold lastComp
      have : (d ++ '/' :: F).reverse = F.reverse ++ '/' :: d.reverse := by simp
      rw [this, takeWhile_append_of_all hFall, List.takeWhile_cons_of_neg (by simp)]
      simp
    unfold pathSplit
    dsimp only
    rw [hraw, hlc, if_pos]
    · rw [rstripSlash_append_last hc1 hc2]
      simp [rstripSlash]
    · constructor
      · simp
      · obtain ⟨t, rfl⟩ := List.getLast?_eq_some_iff.mp hc1
        exact List.any_eq_true.mpr ⟨c, by simp, by simpa using hc2⟩


/-! ## Claim theorems -/

/-- Helper: the reassembled filename for an explicitly forced version. -/
theorem reassemble_forced (d b e sep : PyStr) (k : Nat) :
    reassemble d b k e sep =
      pathJoin d (if k = 0 then b ++ e else b ++ chars ".v" ++ natDigits k ++ e) ++ sep := by
  unfold reassemble
  by_cases hk : k = 0
  · subst hk
    simp
  · rw [if_neg hk, if_pos hk]

/-- C3: with an explicit target version, `bump_version` probes nothing and
returns the path reassembled with exactly that version: version 0 removes
the marker, version K > 0 writes exactly `.vK` before the extension, and
only the last `.vN` occurrence of the filename is treated as the version
marker (earlier ones stay part of the base name). -/
theorem c3_forced_version (fs extra : List PyStr) (path d b ds e : PyStr) (K : Nat)
    (hsep : path.getLast? ≠ some '/')
    (hsplit : pathSplit path = (d, b ++ '.' :: 'v' :: ds ++ e))
    (hds1 : ds ≠ []) (hds2 : ∀ c ∈ ds, c.isDigit)
    (he : e = [] ∨ ∃ w, e = '.' :: w ∧ '.' ∉ w ∧ ¬ isVDigits w) :
    bump_version fs path (some K) extra =
      (pathJoin d (if K = 0 then b ++ e else b ++ chars ".v" ++ natDigits K ++ e), K) := by
  have hss : stripSep path = (path, []) := by
    unfold stripSep
    rw [if_neg hsep]
  have hpf : parseFile (b ++ '.' :: 'v' :: ds ++ e) = (b, some (digitsToNat ds), e) := by
    rcases he with rfl | ⟨w, rfl, hw, hnv⟩
    · have := parseFile_marker hds1 hds2 (b := b)
      simpa using this
    · exact parseFile_marker_ext hds1 hds2 hw hnv
  rw [bump_version_some fs extra K hss hsplit hpf, reassemble_forced]
  simp

/-- C3 witness: the repository's own degenerate test vector
`A.v23.bar.v45.foo`: the last marker `.v45` carries the version, forcing
version 42 rewrites only it, forcing version 0 strips only it. -/
theorem c3_forced_version_witness :
    bump_version [chars "x"] (chars "A.v23.bar.v45.foo") (some 42) [chars "D"] =
        (chars "A.v23.bar.v42.foo", 42) ∧
      bump_version [] (chars "A.v23.bar.v45.foo") (some 0) [] =
        (chars "A.v23.bar.foo", 0) := by
  constructor
  · have h := c3_forced_version [chars "x"] [chars "D"] (chars "A.v23.bar.v45.foo")
      [] (chars "A.v23.bar") (chars "45") (chars ".foo") 42
      (by decide) (by decide) (by decide) (by decide)
      (Or.inr ⟨chars "foo", by decide, by decide, by decide⟩)
    rw [h]
    decide
  · have h := c3_forced_version [] [] (chars "A.v23.bar.v45.foo")
      [] (chars "A.v23.bar") (chars "45") (chars ".foo") 0
      (by decide) (by decide) (by decide) (by decide)
      (Or.inr ⟨chars "foo", by decide, by decide, by decide⟩)
    rw [h]
    decide

/-- C6: the claim says `cleanup()` removes every registered directory and
leaves the registry empty. The loop iterates over the very list that
`rm_tempdir` mutates, so with registry `[a, b]` only `a` is removed and
`b` stays registered: the code contradicts the documented contract. -/
theorem c6_cleanup_skips_entries :
    cleanup ⟨[chars "a", chars "b"], []⟩ = ⟨[chars "b"], [chars "a"]⟩ ∧
      (cleanup ⟨[chars "a", chars "b"], []⟩).dirs ≠ [] := by
  constructor <;> decide

/-- C7: on an empty POD selection, `MDTFFramework.parse_pod_list`
(framework/framework.py) exits with code 1 as the claim demands, but
`MDTFConfigurer.parse_pod_list` (src/src/configs.py) calls bare `exit()`,
which terminates the process with exit code 0, contradicting the claimed
nonzero exit code. -/
theorem c7_exit_code_on_empty :
    parse_pod_list_src [chars "pod_a"] [] [] [chars "junk"] = .error 0 ∧
      parse_pod_list_framework [chars "pod_a"] [] [] [chars "junk"] = .error 1 ∧
      parse_pod_list_src [] [] [] [] = .error 0 ∧
      parse_pod_list_framework [] [] [] [] = .error 1 := by
  exact ⟨rfl, rfl, rfl, rfl⟩


/-! ### Facts about reassembled paths, used by C10 and C1 -/

theorem head_ne_slash {F : PyStr} (h : '/' ∉ F) : F.head? ≠ some '/' := by
  intro hc
  rcases F with _ | ⟨a, t⟩
  · simp at hc
  · simp at hc
    subst hc
    exact h (List.mem_cons_self _ _)

theorem getLast_ne_slash {F : PyStr} (h1 : '/' ∉ F) (h2 : F ≠ []) :
    ∃ c, F.getLast? = some c ∧ c ≠ '/' := by
  rcases List.eq_nil_or_concat F with h | ⟨t, c, h⟩
  · exact absurd h h2
  · refine ⟨c, ?_, ?_⟩
    · rw [h, List.concat_eq_append]
      exact List.getLast?_concat _
    · rintro rfl
      exact h1 (by rw [h]; simp [List.concat_eq_append])

theorem pathJoin_getLast {d F : PyStr} {c : Char} (hFh : F.head? ≠ some '/')
    (hFl : F.getLast? = some c) : (pathJoin d F).getLast? = some c := by
  rw [pathJoin_eq_joinPre hFh]
  obtain ⟨t, rfl⟩ := List.getLast?_eq_some_iff.mp hFl
  rw [← List.append_assoc]
  exact List.getLast?_concat _

/-- Undoing the trailing-separator handling on a reassembled path. -/
theorem stripSep_join_sep {d F sep : PyStr} (hF1 : '/' ∉ F) (hF2 : F ≠ [])
    (hsep : sep = [] ∨ sep = ['/']) :
    stripSep (pathJoin d F ++ sep) = (pathJoin d F, sep) := by
  obtain ⟨c, hc1, hc2⟩ := getLast_ne_slash hF1 hF2
  have hJl : (pathJoin d F).getLast? = some c := pathJoin_getLast (head_ne_slash hF1) hc1
  rcases hsep with rfl | rfl
  · rw [List.append_nil]
    unfold stripSep
    have hneq : (pathJoin d F).getLast? ≠ some '/' := by
      rw [hJl]
      intro hh
      injection hh with hh
      exact hc2 hh
    rw [if_neg hneq]
  · unfold stripSep
    have hl : (pathJoin d F ++ ['/']).getLast? = some '/' := List.getLast?_concat _
    rw [if_pos hl, rstripSlash_append_last hJl hc2]
    have hr : rstripSlash ['/'] = [] := by decide
    rw [hr, List.append_nil]

/-- C10: re-forcing the same positive version on the output of a
forced-version `bump_version` call returns that output unchanged. -/
theorem c10_forced_idempotent (fs extra : List PyStr) (p : PyStr) (v : Nat) (hv : 0 < v) :
    (bump_version fs (bump_version fs p (some v) extra).1 (some v) extra).1
      = (bump_version fs p (some v) extra).1 := by
  rcases hss : stripSep p with ⟨p0, sep⟩
  rcases hps : pathSplit p0 with ⟨d, f0⟩
  obtain ⟨b, ov, e, hpf, he, hrec⟩ := parseFile_spec f0
  have h1 := bump_version_some fs extra v hss hps hpf
  rw [h1]
  have hsep2 : sep = [] ∨ sep = ['/'] := by
    unfold stripSep at hss
    by_cases h : p.getLast? = some '/'
    · rw [if_pos h] at hss
      injection hss with ha hb2
      exact Or.inr hb2.symm
    · rw [if_neg h] at hss
      injection hss with ha hb2
      exact Or.inl hb2.symm
  have hf0 : '/' ∉ f0 := by
    have h2 : f0 = lastComp p0 := by
      rw [← pathSplit_snd p0, hps]
    rw [h2]
    exact lastComp_no_slash p0
  have hbe : '/' ∉ b ∧ '/' ∉ e := by
    rcases hrec with ⟨-, hfe⟩ | ⟨n, ds, -, -, -, -, hfe⟩
    · constructor
      · intro hm
        exact hf0 (hfe ▸ List.mem_append.mpr (Or.inl hm))
      · intro hm
        exact hf0 (hfe ▸ List.mem_append.mpr (Or.inr hm))
    · constructor
      · intro hm
        apply hf0
        rw [hfe]
        exact List.mem_append.mpr (Or.inl (List.mem_append.mpr (Or.inl hm)))
      · intro hm
        apply hf0
        rw [hfe]
        exact List.mem_append.mpr (Or.inr hm)
  have hvne : v ≠ 0 := by omega
  have hreF : reassemble d b v e sep
      = pathJoin d (b ++ chars ".v" ++ natDigits v ++ e) ++ sep := by
    unfold reassemble
    rw [if_pos hvne]
  have hFns : '/' ∉ (b ++ chars ".v" ++ natDigits v ++ e) := by
    intro hm
    rcases List.mem_append.mp hm with hm1 | hm1
    · rcases List.mem_append.mp hm1 with hm2 | hm2
      · rcases List.mem_append.mp hm2 with hm3 | hm3
        · exact hbe.1 hm3
        · simp [chars] at hm3
      · exact isDigit_ne_slash (natDigits_all_digit v _ hm2) rfl
    · exact hbe.2 hm1
  have hFne : (b ++ chars ".v" ++ natDigits v ++ e) ≠ [] := by
    simp [chars]
  have hdclean : d = [] ∨ (∀ c ∈ d, c = '/') ∨ ∃ c, d.getLast? = some c ∧ c ≠ '/' := by
    have h3 := pathSplit_fst_clean p0
    rw [hps] at h3
    exact h3
  have hss2 : stripSep (pathJoin d (b ++ chars ".v" ++ natDigits v ++ e) ++ sep)
      = (pathJoin d (b ++ chars ".v" ++ natDigits v ++ e), sep) :=
    stripSep_join_sep hFns hFne hsep2
  have hps2 : pathSplit (pathJoin d (b ++ chars ".v" ++ natDigits v ++ e))
      = (d, b ++ chars ".v" ++ natDigits v ++ e) :=
    pathSplit_join hFns hFne hdclean
  have hpf2 : parseFile (b ++ chars ".v" ++ natDigits v ++ e) = (b, some v, e) := by
    rcases he with rfl | ⟨w, rfl, hw, hnv⟩
    · have h4 : b ++ chars ".v" ++ natDigits v ++ ([] : PyStr)
          = b ++ '.' :: 'v' :: natDigits v := by
        simp [chars]
      rw [h4, parseFile_marker (natDigits_ne_nil v) (natDigits_all_digit v),
        digitsToNat_natDigits]
    · have h4 : b ++ chars ".v" ++ natDigits v ++ '.' :: w
          = b ++ '.' :: 'v' :: natDigits v ++ '.' :: w := by
        simp [chars]
      rw [h4, parseFile_marker_ext (natDigits_ne_nil v) (natDigits_all_digit v) hw hnv,
        digitsToNat_natDigits]
  have h2 := bump_version_some fs extra v hss2 hps2 hpf2
  rw [hreF, h2, ← hreF]

/-- C10 witness: re-forcing version 5 fixes the output of the first
forced call. -/
theorem c10_forced_idempotent_witness :
    (bump_version [] (bump_version [] (chars "D/C/A.v23.foo") (some 5) []).1 (some 5) []).1
      = (bump_version [] (chars "D/C/A.v23.foo") (some 5) []).1 ∧
      (bump_version [] (chars "D/C/A.v23.foo") (some 5) []).1 = chars "D/C/A.v5.foo" :=
  ⟨c10_forced_idempotent [] [] (chars "D/C/A.v23.foo") 5 (by decide), by decide⟩

/-- Membership in a `contains`-filter. -/
theorem mem_filter_contains {l m : List PyStr} {x : PyStr} :
    x ∈ l.filter (fun a => m.contains a) ↔ x ∈ l ∧ x ∈ m := by
  simp [List.mem_filter]

/-- Membership in a negated `contains`-filter. -/
theorem mem_filter_not_contains {l m : List PyStr} {x : PyStr} :
    x ∈ l.filter (fun a => ! m.contains a) ↔ x ∈ l ∧ x ∉ m := by
  simp [List.mem_filter]

/-- The `issubset` test of the realm index. -/
theorem all_contains_iff {k realms : List PyStr} :
    (k.all fun r => realms.contains r) = true ↔ ∀ r ∈ k, r ∈ realms := by
  simp [List.all_eq_true]

/-- C4: POD-list resolution follows the branch order of the source: an
`example`/`examples` selector yields exactly the registered PODs whose
name starts with `example`; otherwise `all` yields every registered POD
except those (each exactly once when the registry is duplicate-free);
otherwise the union of the PODs of every realm-index key whose realm set
is contained in the selector's realm tokens, plus the leftover tokens
that exactly match a POD name, with unmatched tokens dropped and
example PODs excluded. -/
theorem c4_pod_list_resolution (pd ar : List PyStr)
    (prm : List (List PyStr × List PyStr)) (args : List PyStr) (x : PyStr) :
    (x ∈ parse_pod_list_core pd ar prm args ↔
      (if chars "example" ∈ args ∨ chars "examples" ∈ args then
        x ∈ pd ∧ (chars "example").isPrefixOf x = true
      else if chars "all" ∈ args then
        x ∈ pd ∧ (chars "example").isPrefixOf x = false
      else
        (chars "example").isPrefixOf x = false ∧
          ((∃ kv ∈ prm, (∀ r ∈ kv.1, r ∈ args ∧ r ∈ ar) ∧ x ∈ kv.2) ∨
            (x ∈ args ∧ x ∉ ar ∧ x ∈ pd)))) ∧
      (pd.Nodup → ¬ (chars "example" ∈ args ∨ chars "examples" ∈ args) →
        chars "all" ∈ args → (parse_pod_list_core pd ar prm args).Nodup) := by
  constructor
  · unfold parse_pod_list_core
    by_cases h1 : chars "example" ∈ args ∨ chars "examples" ∈ args
    · rw [if_pos h1]
      have hb : (args.contains (chars "example") || args.contains (chars "examples")) = true := by
        rcases h1 with h | h <;> simp [h]
      rw [if_pos hb]
      simp [List.mem_filter]
    · rw [if_neg h1]
      push_neg at h1
      rw [if_neg (by simp [h1.1, h1.2])]
      by_cases h2 : chars "all" ∈ args
      · rw [if_pos h2, if_pos (by simpa using h2)]
        simp [List.mem_filter, Bool.not_eq_true']
      · rw [if_neg h2, if_neg (by simpa using h2)]
        rw [List.mem_filter, List.mem_append]
        constructor
        · rintro ⟨hin, hex⟩
          refine ⟨by simpa using hex, ?_⟩
          rcases hin with hby | hby
          · rw [List.mem_flatMap] at hby
            obtain ⟨kv, hkv, hxkv⟩ := hby
            rw [List.mem_filter] at hkv
            refine Or.inl ⟨kv, hkv.1, ?_, hxkv⟩
            intro r hr
            exact mem_filter_contains.mp ((all_contains_iff.mp hkv.2) r hr)
          · rw [List.mem_filter] at hby
            obtain ⟨hb1, hb2⟩ := hby
            obtain ⟨ha, hna⟩ := mem_filter_not_contains.mp hb1
            exact Or.inr ⟨ha, hna, by simpa using hb2⟩
        · rintro ⟨hex, hin⟩
          refine ⟨?_, by simpa using hex⟩
          rcases hin with ⟨kv, hkv, hr, hxkv⟩ | ⟨ha, hna, hp⟩
          · refine Or.inl ?_
            rw [List.mem_flatMap]
            refine ⟨kv, ?_, hxkv⟩
            rw [List.mem_filter]
            exact ⟨hkv, all_contains_iff.mpr fun r hrr => mem_filter_contains.mpr (hr r hrr)⟩
          · refine Or.inr ?_
            rw [List.mem_filter]
            exact ⟨mem_filter_not_contains.mpr ⟨ha, hna⟩, by simpa using hp⟩
  · intro hnd h1 h2
    unfold parse_pod_list_core
    push_neg at h1
    rw [if_neg (by simp [h1.1, h1.2]), if_pos (by simpa using h2)]
    exact List.Nodup.filter _ hnd

/-- C4 witness: with registry `[example_x, pod_a]` and selector `all`,
`pod_a` is selected, `example_x` is not, and the result is
duplicate-free. -/
theorem c4_pod_list_resolution_witness :
    chars "pod_a" ∈ parse_pod_list_core [chars "example_x", chars "pod_a"] [] [] [chars "all"] ∧
      (parse_pod_list_core [chars "example_x", chars "pod_a"] [] [] [chars "all"]).Nodup := by
  have h := c4_pod_list_resolution [chars "example_x", chars "pod_a"] [] [] [chars "all"]
    (chars "pod_a")
  exact ⟨h.1.mpr (by decide), h.2 (by decide) (by decide) (by decide)⟩

/-! ### Dict lemmas for C5 -/

theorem dget_cons (kv : PyStr × PyVal) (t : PyDict) (k : PyStr) :
    dget (kv :: t) k = if kv.1 = k then some kv.2 else dget t k := by
  unfold dget
  by_cases h : kv.1 = k
  · rw [List.find?_cons_of_pos _ (by simpa using h), if_pos h]
    rfl
  · rw [List.find?_cons_of_neg _ (by simpa using h), if_neg h]

theorem hasK_cons (kv : PyStr × PyVal) (t : PyDict) (k : PyStr) :
    hasK (kv :: t) k = (kv.1 = k || hasK t k) := by
  simp [hasK]

theorem dget_isSome_of_hasK {d : PyDict} {k : PyStr} (h : hasK d k) :
    (dget d k).isSome := by
  induction d with
  | nil => simp [hasK] at h
  | cons kv t ih =>
    rw [hasK_cons] at h
    rw [dget_cons]
    by_cases hk : kv.1 = k
    · rw [if_pos hk]
      simp
    · rw [if_neg hk]
      apply ih
      simp [hk] at h
      exact h

theorem dget_append_single_ne {d : PyDict} {k k2 : PyStr} {v : PyVal} (hne : k ≠ k2) :
    dget (d ++ [(k2, v)]) k = dget d k := by
  induction d with
  | nil =>
    rw [List.nil_append, dget_cons, if_neg (by simpa using fun h => hne h.symm)]
  | cons kv t ih =>
    rw [List.cons_append, dget_cons, dget_cons]
    by_cases hk : kv.1 = k
    · rw [if_pos hk, if_pos hk]
    · rw [if_neg hk, if_neg hk]
      exact ih

theorem find_map_set {d : PyDict} {k : PyStr} {v : PyVal} (h : hasK d k) :
    dget (d.map (fun kv => if kv.1 = k then (k, v) else kv)) k = some v := by
  induction d with
  | nil => simp [hasK] at h
  | cons kv t ih =>
    rw [List.map_cons]
    by_cases hk : kv.1 = k
    · rw [if_pos hk, dget_cons, if_pos rfl]
    · rw [if_neg hk, dget_cons, if_neg hk]
      apply ih
      rw [hasK_cons] at h
      simp [hk] at h
      exact h

theorem find_map_set_ne {d : PyDict} {k k2 : PyStr} {v : PyVal} (hne : k2 ≠ k) :
    dget (d.map (fun kv => if kv.1 = k then (k, v) else kv)) k2 = dget d k2 := by
  induction d with
  | nil => rfl
  | cons kv t ih =>
    rw [List.map_cons]
    by_cases hk : kv.1 = k
    · rw [if_pos hk, dget_cons, dget_cons, if_neg (by simpa using fun h => hne h.symm),
        if_neg (by rw [hk]; simpa using fun h => hne h.symm)]
      exact ih
    · rw [if_neg hk, dget_cons, dget_cons]
      by_cases h2 : kv.1 = k2
      · rw [if_pos h2, if_pos h2]
      · rw [if_neg h2, if_neg h2]
        exact ih

theorem dget_dset_self (d : PyDict) (k : PyStr) (v : PyVal) :
    dget (dset d k v) k = some v := by
  unfold dset
  by_cases h : hasK d k
  · rw [if_pos h]
    exact find_map_set h
  · rw [if_neg h]
    induction d with
    | nil =>
      rw [List.nil_append, dget_cons, if_pos rfl]
    | cons kv t ih =>
      rw [List.cons_append, dget_cons]
      by_cases hk : kv.1 = k
      · exfalso
        apply h
        rw [hasK_cons]
        simp [hk]
      · rw [if_neg hk]
        apply ih
        intro ht
        apply h
        rw [hasK_cons]
        simp [ht]

theorem dget_dset_ne (d : PyDict) (k k2 : PyStr) (v : PyVal) (hne : k2 ≠ k) :
    dget (dset d k v) k2 = dget d k2 := by
  unfold dset
  by_cases h : hasK d k
  · rw [if_pos h]
    exact find_map_set_ne hne
  · rw [if_neg h]
    exact dget_append_single_ne hne

theorem foldl_dset_not_has {c : PyDict} {k : PyStr} (h : ¬ hasK c k) :
    ∀ acc : PyDict, dget (c.foldl (fun a kv => dset a kv.1 kv.2) acc) k = dget acc k := by
  induction c with
  | nil => intro acc; rfl
  | cons kv t ih =>
    intro acc
    rw [List.foldl_cons]
    have hkv : k ≠ kv.1 := by
      intro hk
      apply h
      rw [hasK_cons]
      simp [hk]
    have ht : ¬ hasK t k := by
      intro ht
      apply h
      rw [hasK_cons]
      simp [ht]
    rw [ih ht, dget_dset_ne _ _ _ _ hkv]

/-- `d.update(c)` makes the value of every key of `c` equal to its value
in `c` (Python dicts have unique keys). -/
theorem dget_dupdate {c : PyDict} (d : PyDict) {k : PyStr}
    (hnd : (c.map Prod.fst).Nodup) (hk : hasK c k) :
    dget (dupdate d c) k = dget c k := by
  unfold dupdate
  induction c generalizing d with
  | nil => simp [hasK] at hk
  | cons kv t ih =>
    rw [List.foldl_cons]
    by_cases hke : kv.1 = k
    · have hkt : ¬ hasK t k := by
        intro ht
        rw [List.map_cons] at hnd
        unfold hasK at ht
        obtain ⟨x, hx1, hx2⟩ := List.any_eq_true.mp ht
        have hxe : x.1 = k := by simpa using hx2
        have hm : kv.1 ∈ t.map Prod.fst :=
          List.mem_map.mpr ⟨x, hx1, by rw [hxe, ← hke]⟩
        exact (List.nodup_cons.mp hnd).1 hm
      rw [foldl_dset_not_has hkt, dget_cons, if_pos hke, ← hke, dget_dset_self]
    · rw [dget_cons, if_neg hke]
      have ht : hasK t k := by
        rw [hasK_cons] at hk
        simp [hke] at hk
        exact hk
      have hnd2 : (t.map Prod.fst).Nodup := by
        rw [List.map_cons] at hnd
        exact (List.nodup_cons.mp hnd).2
      exact ih (dset d kv.1 kv.2) hnd2 ht

theorem dget_dsetdefault (d : PyDict) (k2 k : PyStr) (v : PyVal)
    (h : k = k2 → hasK d k) : dget (dsetdefault d k2 v) k = dget d k := by
  unfold dsetdefault
  by_cases h2 : hasK d k2
  · rw [if_pos h2]
  · rw [if_neg h2]
    by_cases hk : k = k2
    · exact absurd (hk ▸ h hk) h2
    · exact dget_append_single_ne hk

theorem hasK_of_dget_isSome {d : PyDict} {k : PyStr} (h : (dget d k).isSome) :
    hasK d k := by
  induction d with
  | nil => simp [dget] at h
  | cons kv t ih =>
    rw [dget_cons] at h
    rw [hasK_cons]
    by_cases hk : kv.1 = k
    · simp [hk]
    · rw [if_neg hk] at h
      simp [hk]
      exact ih h

/-- C5 (amended): after merging a case entry with the CLI override dict,
the CLI value wins for every CLI key except `convention` (which the code
deliberately restores from the case entry when that is nonempty) and
`pod_list` (which is recomputed from the resolved POD selection). -/
theorem c5_cli_overrides (gp : PyVal) (pdef : Bool) (d0 cli : PyDict) (k : PyStr)
    (res : PyDict)
    (hnd : (cli.map Prod.fst).Nodup) (hk : hasK cli k)
    (hkc : k ≠ chars "convention") (hkp : k ≠ chars "pod_list")
    (hres : parse_case gp pdef d0 cli = some res) :
    dget res k = dget cli k := by
  have hcli : (dget cli k).isSome := dget_isSome_of_hasK hk
  have L2 : ∀ (E : PyDict) (cc : PyVal), dget E k = dget cli k →
      dget (if cc.truthy then dset E (chars "convention") cc else E) k = dget cli k := by
    intro E cc hE
    split
    · rw [dget_dset_ne _ _ _ _ hkc]
      exact hE
    · exact hE
  have L3 : ∀ (E : PyDict) (k2 : PyStr) (v : PyVal), dget E k = dget cli k →
      dget (dsetdefault E k2 v) k = dget cli k := by
    intro E k2 v hE
    rw [dget_dsetdefault E k2 k v (fun _ => hasK_of_dget_isSome (by rw [hE]; exact hcli))]
    exact hE
  have Lmerge : ∀ D : PyDict, dget (case_merge D cli) k = dget cli k := by
    intro D
    unfold case_merge
    exact L2 _ _ (dget_dupdate _ hnd hk)
  have Ldef : ∀ D : PyDict, dget D k = dget cli k → dget (case_defaults D) k = dget cli k := by
    intro D hD
    unfold case_defaults
    exact L3 _ _ _ (L3 _ _ _ (L3 _ _ _ hD))
  unfold parse_case at hres
  dsimp only at hres
  split at hres
  · exact absurd hres (by simp)
  · split at hres
    · exact absurd hres (by simp)
    · split at hres
      · exact absurd hres (by simp)
      · split at hres
        · exact absurd hres (by simp)
        · injection hres with hres2
          rw [← hres2, dget_dset_ne _ _ _ _ hkp]
          exact Ldef _ (Lmerge _)

/-- C5 counterexample: the claim as stated ("the CLI value wins for every
key present in both, including convention") fails: a case entry with a
nonempty convention keeps it against a CLI convention override. -/
theorem c5_convention_not_overridden :
    (parse_case (.l [chars "p"]) true
        [(chars "CASENAME", .s (chars "foo")), (chars "FIRSTYR", .s (chars "1990")),
          (chars "LASTYR", .s (chars "2000")), (chars "convention", .s (chars "B"))]
        [(chars "convention", .s (chars "A"))]).map
        (fun r => dget r (chars "convention"))
      = some (some (.s (chars "B"))) ∧
      dget [(chars "convention", .s (chars "A"))] (chars "convention")
        = some (.s (chars "A")) ∧
      (PyVal.s (chars "B")) ≠ (PyVal.s (chars "A")) := by
  exact And.intro (by decide) (And.intro (by decide) (by decide))

/-- C5 witness: a CLI `model` override survives into the parsed case. -/
theorem c5_cli_overrides_witness :
    dget ((parse_case (.l [chars "p"]) true
        [(chars "CASENAME", .s (chars "c")), (chars "FIRSTYR", .s (chars "1")),
          (chars "LASTYR", .s (chars "2")), (chars "convention", .s (chars "CF"))]
        [(chars "model", .s (chars "m"))]).getD [])
        (chars "model")
      = dget [(chars "model", .s (chars "m"))] (chars "model") := by
  have h := c5_cli_overrides (.l [chars "p"]) true
    [(chars "CASENAME", .s (chars "c")), (chars "FIRSTYR", .s (chars "1")),
      (chars "LASTYR", .s (chars "2")), (chars "convention", .s (chars "CF"))]
    [(chars "model", .s (chars "m"))] (chars "model")
    ((parse_case (.l [chars "p"]) true
        [(chars "CASENAME", .s (chars "c")), (chars "FIRSTYR", .s (chars "1")),
          (chars "LASTYR", .s (chars "2")), (chars "convention", .s (chars "CF"))]
        [(chars "model", .s (chars "m"))]).getD [])
    (by decide) (by decide) (by decide) (by decide) (by decide)
  rw [h]

/-! ### VariableTranslator loading lemmas for C8 -/

theorem alget_isSome_iff {α : Type} (l : List (PyStr × α)) (k : PyStr) :
    (alget l k).isSome ↔ k ∈ l.map Prod.fst := by
  unfold alget
  rcases hf : List.find? (fun kv => decide (kv.1 = k)) l with _ | x
  · simp only [hf, Option.map_none', Option.isSome_none]
    constructor
    · intro h
      simp at h
    · intro hm
      obtain ⟨x, hx, he⟩ := List.mem_map.mp hm
      have h2 := List.find?_eq_none.mp hf x hx
      simp [he] at h2
  · simp only [hf, Option.map_some', Option.isSome_some]
    constructor
    · intro h
      have h1 := List.find?_some hf
      have h2 := List.mem_of_find?_eq_some hf
      exact List.mem_map.mpr ⟨x, h2, by simpa using h1⟩
    · intro h
      trivial

theorem alget_append_isSome {α : Type} {l : List (PyStr × α)} {k : PyStr}
    (h : (alget l k).isSome) (l2 : List (PyStr × α)) :
    alget (l ++ l2) k = alget l k := by
  induction l with
  | nil => simp [alget] at h
  | cons kv t ih =>
    by_cases hk : kv.1 = k
    · unfold alget
      rw [List.cons_append, List.find?_cons_of_pos _ (by simpa using hk),
        List.find?_cons_of_pos _ (by simpa using hk)]
    · unfold alget at h ⊢
      rw [List.cons_append, List.find?_cons_of_neg _ (by simpa using hk),
        List.find?_cons_of_neg _ (by simpa using hk)]
      rw [List.find?_cons_of_neg _ (by simpa using hk)] at h
      exact ih h

theorem regConv_isSome_cases (st : VTState) (f : Fieldlist) (c : PyStr) :
    (regConv st f c = none ∧ c ∈ vtKeys st) ∨
      (c ∉ vtKeys st ∧ regConv st f c =
        some ⟨st.axes ++ [(c, f.axes)], st.varTables ++ [(c, f.var_names)],
              st.units ++ [(c, f.units)]⟩) := by
  unfold regConv
  by_cases h : (alget st.varTables c).isSome
  · rw [if_pos h]
    exact Or.inl ⟨rfl, (alget_isSome_iff _ _).mp h⟩
  · rw [if_neg h]
    refine Or.inr ⟨?_, rfl⟩
    intro hm
    exact h ((alget_isSome_iff _ _).mpr hm)

theorem nodup_append_cons_of_mem {K cs : List PyStr} {c : PyStr} (hc : c ∈ K) :
    ¬ (K ++ c :: cs).Nodup := by
  intro h
  rw [show K ++ c :: cs = (K ++ [c]) ++ cs by simp] at h
  have h2 : (K ++ [c]).Nodup := ((List.nodup_append).mp h).1
  have h3 := ((List.nodup_append).mp h2).2.2
  exact h3 hc (List.mem_singleton.mpr rfl)

theorem nodup_append_singleton {K : List PyStr} {c : PyStr} (hK : K.Nodup)
    (hc : c ∉ K) : (K ++ [c]).Nodup := by
  rw [List.nodup_append]
  refine ⟨hK, List.nodup_singleton c, ?_⟩
  intro a ha hb
  rw [List.mem_singleton] at hb
  subst hb
  exact hc ha

/-- Behaviour of the inner alias-registration loop: it raises exactly when
an alias duplicates the keys registered so far, the success state extends
the key list by the aliases in order, and a table registered before the
loop is never changed, in both the success and the raise state. -/
theorem regAliases_spec (f : Fieldlist) : ∀ (cs : List PyStr) (st : VTState),
    (vtKeys st).Nodup →
    (((∃ st2, regAliases f cs st = .error st2) ↔ ¬ (vtKeys st ++ cs).Nodup) ∧
      (∀ st2, regAliases f cs st = .ok st2 → vtKeys st2 = vtKeys st ++ cs ∧ (vtKeys st2).Nodup ∧
        ∀ a, (alget st.varTables a).isSome → alget st2.varTables a = alget st.varTables a) ∧
      (∀ st2, regAliases f cs st = .error st2 →
        ∀ a, (alget st.varTables a).isSome → alget st2.varTables a = alget st.varTables a)) := by
  intro cs
  induction cs with
  | nil =>
    intro st hst
    refine ⟨?_, ?_, ?_⟩
    · constructor
      · rintro ⟨st2, h⟩
        simp [regAliases] at h
      · intro h
        simp at h
        exact absurd hst h
    · intro st2 h
      simp [regAliases] at h
      subst h
      simp [hst]
    · intro st2 h
      simp [regAliases] at h
  | cons c cs ih =>
    intro st hst
    rcases regConv_isSome_cases st f c with ⟨hrc, hmem⟩ | ⟨hmem, hrc⟩
    · have herr : regAliases f (c :: cs) st = .error st := by
        unfold regAliases
        rw [hrc]
      refine ⟨?_, ?_, ?_⟩
      · constructor
        · intro h
          exact nodup_append_cons_of_mem hmem
        · intro h
          exact ⟨st, herr⟩
      · intro st2 h
        rw [herr] at h
        cases h
      · intro st2 h
        rw [herr] at h
        injection h with h
        subst h
        intro a ha
        rfl
    · have hstep : regAliases f (c :: cs) st
          = regAliases f cs ⟨st.axes ++ [(c, f.axes)], st.varTables ++ [(c, f.var_names)],
              st.units ++ [(c, f.units)]⟩ := by
        conv_lhs => unfold regAliases
        rw [hrc]
      have hkeys2 : vtKeys ⟨st.axes ++ [(c, f.axes)], st.varTables ++ [(c, f.var_names)],
          st.units ++ [(c, f.units)]⟩ = vtKeys st ++ [c] := by
        simp [vtKeys]
      have hnd2 : (vtKeys ⟨st.axes ++ [(c, f.axes)], st.varTables ++ [(c, f.var_names)],
          st.units ++ [(c, f.units)]⟩).Nodup := by
        rw [hkeys2]
        exact nodup_append_singleton hst hmem
      obtain ⟨ih1, ih2, ih3⟩ := ih _ hnd2
      have hpres : ∀ a, (alget st.varTables a).isSome →
          alget (st.varTables ++ [(c, f.var_names)]) a = alget st.varTables a :=
        fun a ha => alget_append_isSome ha _
      refine ⟨?_, ?_, ?_⟩
      · rw [hstep]
        rw [ih1, hkeys2]
        constructor
        · intro h
          intro h2
          apply h
          rw [show vtKeys st ++ c :: cs = (vtKeys st ++ [c]) ++ cs by simp] at h2
          exact h2
        · intro h h2
          apply h
          rw [show vtKeys st ++ c :: cs = (vtKeys st ++ [c]) ++ cs by simp]
          exact h2
      · intro st2 h
        rw [hstep] at h
        obtain ⟨hk, hn, hp⟩ := ih2 st2 h
        refine ⟨by rw [hk, hkeys2]; simp, hn, ?_⟩
        intro a ha
        rw [hp a (by rw [hpres a ha]; exact ha), hpres a ha]
      · intro st2 h
        rw [hstep] at h
        intro a ha
        rw [ih3 st2 h a (by rw [hpres a ha]; exact ha), hpres a ha]

/-- Behaviour of the outer file loop of `VariableTranslator.__init__`. -/
theorem loadVTAux_spec : ∀ (files : List Fieldlist) (st : VTState),
    (vtKeys st).Nodup →
    (((∃ st2, loadVTAux files st = .error st2) ↔
        ¬ (vtKeys st ++ allAliases files).Nodup) ∧
      (∀ st2, loadVTAux files st = .ok st2 →
        vtKeys st2 = vtKeys st ++ allAliases files ∧ (vtKeys st2).Nodup ∧
        ∀ a, (alget st.varTables a).isSome → alget st2.varTables a = alget st.varTables a) ∧
      (∀ st2, loadVTAux files st = .error st2 →
        ∀ a, (alget st.varTables a).isSome → alget st2.varTables a = alget st.varTables a)) := by
  intro files
  induction files with
  | nil =>
    intro st hst
    refine ⟨?_, ?_, ?_⟩
    · constructor
      · rintro ⟨st2, h⟩
        simp [loadVTAux] at h
      · intro h
        simp [allAliases] at h
        exact absurd hst h
    · intro st2 h
      simp [loadVTAux] at h
      subst h
      simp [allAliases, hst]
    · intro st2 h
      simp [loadVTAux] at h
  | cons f fsl ih =>
    intro st hst
    have halrw : allAliases (f :: fsl) = f.convention_name ++ allAliases fsl := by
      simp [allAliases]
    obtain ⟨r1, r2, r3⟩ := regAliases_spec f f.convention_name st hst
    rcases hra : regAliases f f.convention_name st with st2 | st2
    · have hstep : loadVTAux (f :: fsl) st = .error st2 := by
        unfold loadVTAux
        rw [hra]
      have hdup := r1.mp ⟨st2, hra⟩
      refine ⟨?_, ?_, ?_⟩
      · constructor
        · intro h hnd
          apply hdup
          have hsub : (vtKeys st ++ f.convention_name).Sublist
              (vtKeys st ++ allAliases (f :: fsl)) := by
            rw [halrw, ← List.append_assoc]
            exact List.sublist_append_left _ _
          exact List.Sublist.nodup hsub hnd
        · intro h
          exact ⟨st2, hstep⟩
      · intro st3 h
        rw [hstep] at h
        cases h
      · intro st3 h
        rw [hstep] at h
        injection h with h
        subst h
        exact r3 st2 hra
    · have hstep : loadVTAux (f :: fsl) st = loadVTAux fsl st2 := by
        conv_lhs => unfold loadVTAux
        rw [hra]
      obtain ⟨hk2, hnd2, hp2⟩ := r2 st2 hra
      obtain ⟨i1, i2, i3⟩ := ih st2 hnd2
      have halias : vtKeys st ++ allAliases (f :: fsl) = vtKeys st2 ++ allAliases fsl := by
        rw [hk2, halrw]
        simp
      refine ⟨?_, ?_, ?_⟩
      · rw [hstep, i1, halias]
      · intro st3 h
        rw [hstep] at h
        obtain ⟨j1, j2, j3⟩ := i2 st3 h
        refine ⟨by rw [j1, ← halias], j2, ?_⟩
        intro a ha
        rw [j3 a (by rw [hp2 a ha]; exact ha), hp2 a ha]
      · intro st3 h
        rw [hstep] at h
        intro a ha
        rw [i3 st3 h a (by rw [hp2 a ha]; exact ha), hp2 a ha]

/-- C8: loading convention files raises `ConventionError` exactly when a
file declares an alias that is already registered, whether by an earlier
file or as the built-in CF convention; and a table registered before the
loop never changes afterwards, in particular not at the moment of the
raise, so nothing is silently merged. -/
theorem c8_duplicate_convention (files : List Fieldlist) :
    (isErr (loadVT files) = true ↔
      (chars "CF" ∈ allAliases files ∨ ¬ (allAliases files).Nodup)) ∧
    (∀ st0 st2 a, (loadVTAux files st0 = .error st2 ∨ loadVTAux files st0 = .ok st2) →
      (vtKeys st0).Nodup →
      (alget st0.varTables a).isSome → alget st2.varTables a = alget st0.varTables a) := by
  constructor
  · obtain ⟨r1, r2, r3⟩ := loadVTAux_spec files vtInit (by decide)
    have hkeys : vtKeys vtInit = [chars "CF"] := rfl
    constructor
    · intro h
      have hex : ∃ st2, loadVTAux files vtInit = .error st2 := by
        unfold loadVT at h
        rcases hres : loadVTAux files vtInit with st2 | st2
        · exact ⟨st2, rfl⟩
        · rw [hres] at h
          simp [isErr] at h
      have hnd := r1.mp hex
      rw [hkeys] at hnd
      by_cases hcf : chars "CF" ∈ allAliases files
      · exact Or.inl hcf
      · refine Or.inr ?_
        intro hl
        apply hnd
        rw [List.singleton_append]
        exact List.nodup_cons.mpr ⟨hcf, hl⟩
    · intro h
      have hnd : ¬ (vtKeys vtInit ++ allAliases files).Nodup := by
        rw [hkeys, List.singleton_append]
        intro hn
        rcases h with hcf | hl
        · exact (List.nodup_cons.mp hn).1 hcf
        · exact hl (List.nodup_cons.mp hn).2
      obtain ⟨st2, h2⟩ := r1.mpr hnd
      unfold loadVT
      rw [h2]
      rfl
  · intro st0 st2 a hres hnd ha
    obtain ⟨r1, r2, r3⟩ := loadVTAux_spec files st0 hnd
    rcases hres with h | h
    · exact r3 st2 h a ha
    · exact (r2 st2 h).2.2 a ha

/-- C8 witness: two files declaring the same alias make loading raise,
and the pre-registered CF table is untouched by a successful load. -/
theorem c8_duplicate_convention_witness :
    isErr (loadVT [⟨[chars "newconv"], [], [], []⟩, ⟨[chars "newconv"], [], [], []⟩]) = true ∧
      alget (VTState.mk [(chars "CF", cfAxes), (chars "newconv", [])]
          [(chars "CF", []), (chars "newconv", [])]
          [(chars "CF", []), (chars "newconv", [])]).varTables (chars "CF")
        = alget vtInit.varTables (chars "CF") := by
  constructor
  · exact (c8_duplicate_convention
      [⟨[chars "newconv"], [], [], []⟩, ⟨[chars "newconv"], [], [], []⟩]).1.mpr
      (Or.inr (by decide))
  · exact (c8_duplicate_convention [⟨[chars "newconv"], [], [], []⟩]).2 vtInit
      (VTState.mk [(chars "CF", cfAxes), (chars "newconv", [])]
        [(chars "CF", []), (chars "newconv", [])]
        [(chars "CF", []), (chars "newconv", [])])
      (chars "CF") (Or.inr rfl) (by decide) (by decide)

/-- C9: for a loaded convention other than CF and a convention name that
is a single-valued entry of that convention variable table (its CF
preimage is a unique key k, and k maps to exactly that one name),
translating to CF and back recovers the name: `to_CF` yields k and
`from_CF` on k yields the name; and for the CF convention both
translations are the identity on every name, unconditionally. -/
theorem c9_round_trip (vt : VTState) (conv name k : PyStr) (m : MM)
    (hc : conv ≠ chars "CF")
    (hm : alget vt.varTables conv = some m)
    (hinv : MM.inverseGet m name = [k])
    (hget : MM.getSet m k = some [name]) :
    toCF vt conv name = .ok (.inl k) ∧
    fromCF vt conv k = .ok (.inl name) ∧
    (∀ v, toCF vt (chars "CF") v = .ok (.inl v) ∧
      fromCF vt (chars "CF") v = .ok (.inl v)) := by
  refine ⟨?_, ?_, ?_⟩
  · simp only [toCF, if_neg hc, hm, hinv]
    rfl
  · simp only [fromCF, if_neg hc, hm, hget]
    rfl
  · intro v
    constructor
    · simp [toCF]
    · simp [fromCF]

/-- C9 witness: a one-entry table mapping CF name pr to convention name
precip; both directions of the round trip evaluate as the theorem says. -/
theorem c9_round_trip_witness :
    toCF (VTState.mk [] [(chars "am4", [(chars "pr", [chars "precip"])])] [])
        (chars "am4") (chars "precip") = .ok (.inl (chars "pr")) ∧
      fromCF (VTState.mk [] [(chars "am4", [(chars "pr", [chars "precip"])])] [])
        (chars "am4") (chars "pr") = .ok (.inl (chars "precip")) := by
  have h := c9_round_trip
    (VTState.mk [] [(chars "am4", [(chars "pr", [chars "precip"])])] [])
    (chars "am4") (chars "precip") (chars "pr") [(chars "pr", [chars "precip"])]
    (by decide) (by decide) (by decide) (by decide)
  exact ⟨h.1, h.2.1⟩

/-- C2 counterexample: the path D//C carries no embedded version and
collides with nothing (the filesystem is empty), yet the unforced
`bump_version` returns D/C at version 0, not the input unchanged: the
split-and-rejoin inside the function collapses the doubled separator. -/
theorem c2_unchanged_counterexample :
    pathVersionTag (chars "D//C") = none ∧
      bump_version [] (chars "D//C") none [] = (chars "D/C", 0) ∧
      chars "D/C" ≠ chars "D//C" := by
  refine ⟨by decide, by decide, by decide⟩

/-- C2 (amended): with no explicit target version, `bump_version` probes
upward from the parsed version (0 when the path carries none) and returns
the reassembly at the least collision-free version, provided a free one
exists within the probe bound; the input comes back unchanged at version
0 only when, additionally, the input equals its own split-and-rejoin
normal form; and a trailing separator on the input is preserved. -/
theorem c2_min_free_version (fs extra : List PyStr) (path p sep d f0 b e : PyStr)
    (ov : Option Nat)
    (h1 : stripSep path = (p, sep)) (h2 : pathSplit p = (d, f0))
    (h3 : parseFile f0 = (b, ov, e))
    (hex : ∃ k, k ≤ fs.length ∧ bumpFree fs (extra ++ [d]) b (ov.getD 0 + k) e sep = true) :
    (∃ v, bump_version fs path none extra = (reassemble d b v e sep, v) ∧
      bumpFree fs (extra ++ [d]) b v e sep = true ∧ ov.getD 0 ≤ v ∧
      ∀ w, ov.getD 0 ≤ w → w < v → bumpFree fs (extra ++ [d]) b w e sep = false) ∧
    (ov = none → bumpFree fs (extra ++ [d]) b 0 e sep = true →
      pathJoin d f0 ++ sep = path → bump_version fs path none extra = (path, 0)) ∧
    (path.getLast? = some '/' →
      (bump_version fs path none extra).1.getLast? = some '/') := by
  obtain ⟨k, hk, hfree⟩ := hex
  have hbv := bump_version_none fs extra h1 h2 h3
  have hpm := probe_min fs (extra ++ [d]) b e sep (fs.length + 1) (ov.getD 0)
    ⟨k, by omega, hfree⟩
  refine ⟨?_, ?_, ?_⟩
  · refine ⟨probe fs (extra ++ [d]) b e sep (fs.length + 1) (ov.getD 0),
      hbv, hpm.1, hpm.2.1, ?_⟩
    intro w hw1 hw2
    have h4 := hpm.2.2 w hw1 hw2
    exact Bool.not_eq_true _ ▸ h4
  · intro hov h0 hnorm
    have hpe : pathExistsAny fs (extra ++ [d]) b 0 e sep = false := by
      unfold bumpFree at h0
      rcases h : pathExistsAny fs (extra ++ [d]) b 0 e sep
      · rfl
      · rw [h] at h0
        simp at h0
    have hprobe : probe fs (extra ++ [d]) b e sep (fs.length + 1) (ov.getD 0) = 0 := by
      rw [hov]
      show probe fs (extra ++ [d]) b e sep (fs.length + 1) 0 = 0
      unfold probe
      rw [hpe]
      simp
    rw [hbv, hprobe]
    obtain ⟨b2, ov2, e2, hpf2, he2, hrec2⟩ := parseFile_spec f0
    rw [h3] at hpf2
    injection hpf2 with hb2 hrest
    injection hrest with hov2 he2eq
    subst hb2
    subst hov2
    subst he2eq
    rcases hrec2 with ⟨-, hbe⟩ | ⟨n, ds, hn, -, -, -, -⟩
    · have hre0 : reassemble d b 0 e sep = pathJoin d (b ++ e) ++ sep := by
        unfold reassemble
        simp
      rw [hre0, hbe, hnorm]
    · rw [hov] at hn
      cases hn
  · intro hlast
    have hsep : sep = ['/'] := by
      unfold stripSep at h1
      rw [if_pos hlast] at h1
      injection h1 with ha hb3
      exact hb3.symm
    rw [hbv]
    subst hsep
    unfold reassemble
    rw [List.getLast?_concat]

/-- C2 witness: path A against a filesystem holding only B probes no
collision at version 0 and comes back unchanged, discharging every
hypothesis of the amended statement at a concrete input. -/
theorem c2_min_free_version_witness :
    bump_version [chars "B"] (chars "A") none [] = (chars "A", 0) := by
  have h := c2_min_free_version [chars "B"] [] (chars "A") (chars "A") [] [] (chars "A")
    (chars "A") [] none (by decide) (by decide) (by decide)
    ⟨0, by decide, by decide⟩
  exact h.2.1 rfl (by decide) (by decide)

/-! ### C1: version synchronisation of the working and output dirs -/

theorem all_of_dropWhile_nil {α : Type} {p : α → Bool} {l : List α}
    (h : l.dropWhile p = []) : ∀ a ∈ l, p a = true := by
  intro a ha
  have ht := List.takeWhile_append_dropWhile (p := p) (l := l)
  rw [h, List.append_nil] at ht
  have h2 : a ∈ l.takeWhile p := by
    rw [ht]
    exact ha
  exact mem_of_mem_takeWhile h2

theorem getLast_append_right {x y : PyStr} (h : y ≠ []) :
    (x ++ y).getLast? = y.getLast? := by
  rcases List.eq_nil_or_concat y with rfl | ⟨t, c, rfl⟩
  · exact absurd rfl h
  · rw [List.concat_eq_append, ← List.append_assoc, List.getLast?_concat, List.getLast?_concat]

/-- Appending below a prefix that is empty or slash-terminated does not
change the last path component. -/
theorem lastComp_append_pfx {x y : PyStr} (hx : x = [] ∨ x.getLast? = some '/') :
    lastComp (x ++ y) = lastComp y := by
  by_cases h : '/' ∈ y
  · exact lastComp_append_of_slash h
  · rw [lastComp_append_boundary h hx, lastComp_of_no_slash h]

theorem lastComp_ne_nil {y : PyStr} {c : Char} (hy : y.getLast? = some c)
    (hc : c ≠ '/') : lastComp y ≠ [] := by
  obtain ⟨t, rfl⟩ := List.getLast?_eq_some_iff.mp hy
  unfold lastComp
  have h1 : (t ++ [c]).reverse = c :: t.reverse := by simp
  rw [h1, List.takeWhile_cons_of_pos (by simp [hc])]
  simp

theorem rstripSlash_cons_head {c : Char} (hc : c ≠ '/') (t : PyStr) :
    ∃ t2, rstripSlash (c :: t) = c :: t2 := by
  unfold rstripSlash
  have h1 : (c :: t).reverse = t.reverse ++ [c] := by simp
  rw [h1]
  by_cases h : t.reverse.dropWhile (fun x => decide (x = '/')) = []
  · rw [dropWhile_append_of_all (all_of_dropWhile_nil h),
      List.dropWhile_cons_of_neg (by simp [hc])]
    exact ⟨[], by simp⟩
  · rw [dropWhile_append_of_ne h]
    exact ⟨(t.reverse.dropWhile (fun x => decide (x = '/'))).reverse, by simp⟩

/-- `os.path.join` with a relative second component appends it below a
prefix that is empty or slash-terminated. -/
theorem join_decomp {x y : PyStr} (hy : y.head? ≠ some '/') :
    ∃ x2, (x2 = [] ∨ x2.getLast? = some '/') ∧ pathJoin x y = x2 ++ y := by
  by_cases h : x = [] ∨ x.getLast? = some '/'
  · refine ⟨x, h, ?_⟩
    unfold pathJoin
    rw [if_neg hy, if_pos h]
  · refine ⟨x ++ ['/'], Or.inr (List.getLast?_concat _), ?_⟩
    unfold pathJoin
    rw [if_neg hy, if_neg h]
    simp

/-- The trailing-separator strip commutes with prepending a directory
prefix, as long as the suffix does not strip to nothing. -/
theorem stripSep_append {x y : PyStr} (hy : y ≠ []) (hr : rstripSlash y ≠ []) :
    stripSep (x ++ y) = (x ++ (stripSep y).1, (stripSep y).2) := by
  have hg : (x ++ y).getLast? = y.getLast? := getLast_append_right hy
  unfold stripSep
  by_cases h : y.getLast? = some '/'
  · rw [if_pos (by rw [hg]; exact h), if_pos h]
    dsimp only
    rw [rstripSlash_append_ne hr]
  · rw [if_neg (by rw [hg]; exact h), if_neg h]

/-- Shape facts about the strip of the per-case directory name, which
always starts with the letter M of the MDTF marker. -/
theorem stripSep_facts {cwd C sep : PyStr} (hh : cwd.head? = some 'M')
    (hcs : stripSep cwd = (C, sep)) :
    C ≠ [] ∧ C.head? = some 'M' ∧ (∃ c, C.getLast? = some c ∧ c ≠ '/') ∧
      (sep = [] ∨ sep = ['/']) := by
  obtain ⟨t, rfl⟩ : ∃ t, cwd = 'M' :: t := by
    rcases cwd with _ | ⟨a, t⟩
    · simp at hh
    · simp only [List.head?_cons] at hh
      injection hh with h2
      exact ⟨t, by rw [h2]⟩
  unfold stripSep at hcs
  by_cases h : ('M' :: t).getLast? = some '/'
  · rw [if_pos h] at hcs
    injection hcs with h1 h2
    obtain ⟨t2, hrs⟩ := rstripSlash_cons_head (by decide : ('M' : Char) ≠ '/') t
    have hne : rstripSlash ('M' :: t) ≠ [] := by
      rw [hrs]
      simp
    refine ⟨?_, ?_, ?_, Or.inr h2.symm⟩
    · rw [← h1, hrs]
      simp
    · rw [← h1, hrs]
      rfl
    · rw [← h1]
      exact rstripSlash_getLast hne
  · rw [if_neg h] at hcs
    injection hcs with h1 h2
    refine ⟨?_, ?_, ?_, Or.inl h2.symm⟩
    · rw [← h1]
      simp
    · rw [← h1]
      rfl
    · rcases List.eq_nil_or_concat ('M' :: t) with h3 | ⟨t0, c, h3⟩
      · simp at h3
      · refine ⟨c, ?_, ?_⟩
        · rw [← h1, h3, List.concat_eq_append]
          exact List.getLast?_concat _
        · rintro rfl
          apply h
          rw [h3, List.concat_eq_append]
          exact List.getLast?_concat _

/-- A path containing a slash splits as everything before the last slash,
the slash, and its last component. -/
theorem corner_decomp {C : PyStr} (h : '/' ∈ C) :
    ∃ C1, C = C1 ++ '/' :: lastComp C := by
  have hr : rawHead C ≠ [] := by
    intro h0
    have h4 := rawHead_append_lastComp C
    rw [h0] at h4
    simp only [List.nil_append] at h4
    rw [← h4] at h
    exact lastComp_no_slash C h
  obtain ⟨C1, hC1⟩ := List.getLast?_eq_some_iff.mp (rawHead_getLast hr)
  refine ⟨C1, ?_⟩
  have h4 := rawHead_append_lastComp C
  rw [hC1] at h4
  rw [List.append_assoc, List.singleton_append] at h4
  exact h4.symm

theorem rawHead_append_slash_comp {X c2 : PyStr} (h : '/' ∉ c2) :
    rawHead (X ++ '/' :: c2) = X ++ ['/'] := by
  unfold rawHead
  have h1 : (X ++ '/' :: c2).reverse = c2.reverse ++ '/' :: X.reverse := by simp
  have hall : ∀ a ∈ c2.reverse, (fun c : Char => decide (c ≠ '/')) a = true := by
    intro a ha
    simp only [decide_eq_true_eq]
    rintro rfl
    exact h (List.mem_reverse.mp ha)
  rw [h1, dropWhile_append_of_all hall, List.dropWhile_cons_of_neg (by simp)]
  simp

/-- How `bump_version` decomposes `os.path.join(root, case_wk_dir)`: the
separator, stripped path and filename do not depend on the root, and in
the corner where the filename sits after a slash inside the case
directory name, the directory part is the root prefix followed by a
root-independent remainder. -/
theorem root_split (R cwd C sep : PyStr) (hh : cwd.head? = some 'M')
    (hcs : stripSep cwd = (C, sep)) :
    ∃ pre d, (pre = [] ∨ pre.getLast? = some '/') ∧
      stripSep (pathJoin R cwd) = (pre ++ C, sep) ∧
      pathSplit (pre ++ C) = (d, lastComp C) ∧
      (d = [] ∨ (∀ c ∈ d, c = '/') ∨ ∃ c, d.getLast? = some c ∧ c ≠ '/') ∧
      ∀ C1, C = C1 ++ '/' :: lastComp C → d = pre ++ rstripSlash C1 := by
  obtain ⟨hCne, hChead, ⟨c0, hc0, hc0ne⟩, hsep2⟩ := stripSep_facts hh hcs
  have hhne : cwd.head? ≠ some '/' := by
    rw [hh]
    intro h2
    injection h2 with h2
    exact absurd h2 (by decide)
  have hcwdne : cwd ≠ [] := by
    intro h2
    rw [h2] at hh
    simp at hh
  have hM : 'M' ∈ cwd := by
    rcases cwd with _ | ⟨a, t⟩
    · simp at hh
    · simp only [List.head?_cons] at hh
      injection hh with h2
      subst h2
      exact List.mem_cons_self _ _
  have hrsne : rstripSlash cwd ≠ [] := rstripSlash_ne_of_mem hM (by decide)
  obtain ⟨pre, hpre, hjoin⟩ := join_decomp (x := R) hhne
  have hss : stripSep (pathJoin R cwd) = (pre ++ C, sep) := by
    rw [hjoin, stripSep_append hcwdne hrsne, hcs]
  have hsnd : (pathSplit (pre ++ C)).2 = lastComp C := by
    rw [pathSplit_snd]
    exact lastComp_append_pfx hpre
  refine ⟨pre, (pathSplit (pre ++ C)).1, hpre, hss, ?_, pathSplit_fst_clean _, ?_⟩
  · rw [← hsnd]
  · intro C1 hC1
    obtain ⟨t1, rfl⟩ : ∃ t1, C1 = 'M' :: t1 := by
      rcases C1 with _ | ⟨a, t1⟩
      · rw [hC1] at hChead
        simp only [List.nil_append, List.head?_cons] at hChead
        injection hChead with h6
        exact absurd h6 (by decide)
      · rw [hC1] at hChead
        simp only [List.cons_append, List.head?_cons] at hChead
        injection hChead with h6
        exact ⟨t1, by rw [h6]⟩
    have hrh : rawHead (pre ++ C) = (pre ++ 'M' :: t1) ++ ['/'] := by
      rw [hC1, ← List.append_assoc]
      exact rawHead_append_slash_comp (lastComp_no_slash C)
    have hrne : rawHead (pre ++ C) ≠ [] := by
      rw [hrh]
      simp
    have hany : (rawHead (pre ++ C)).any (fun c => c ≠ '/') = true := by
      rw [hrh]
      refine List.any_eq_true.mpr ⟨'M', ?_, by decide⟩
      simp
    have hd : (pathSplit (pre ++ C)).1 = rstripSlash (rawHead (pre ++ C)) := by
      rw [pathSplit_fst, if_pos ⟨hrne, hany⟩]
    have h7 : rstripSlash ((pre ++ 'M' :: t1) ++ ['/']) = rstripSlash (pre ++ 'M' :: t1) := by
      apply rstripSlash_append_all
      intro c hc
      simp at hc
      exact hc
    obtain ⟨t2, hrs⟩ := rstripSlash_cons_head (by decide : ('M' : Char) ≠ '/') t1
    have h8 : rstripSlash (pre ++ 'M' :: t1) = pre ++ rstripSlash ('M' :: t1) := by
      apply rstripSlash_append_ne
      rw [hrs]
      simp
    rw [hd, hrh, h7, h8]

/-- The last component of a reassembled path, after undoing the trailing
separator, is the reassembled filename: independent of the directory. -/
theorem lastCompFull_join {d F sep : PyStr} (hFns : '/' ∉ F) (hFne : F ≠ [])
    (hsep2 : sep = [] ∨ sep = ['/'])
    (hcl : d = [] ∨ (∀ c ∈ d, c = '/') ∨ ∃ c, d.getLast? = some c ∧ c ≠ '/') :
    lastCompFull (pathJoin d F ++ sep) = F := by
  obtain ⟨c, hc, hcne⟩ := getLast_ne_slash hFns hFne
  have hJl : (pathJoin d F).getLast? = some c := pathJoin_getLast (head_ne_slash hFns) hc
  have hsp := pathSplit_join hFns hFne hcl
  have hlc : lastComp (pathJoin d F) = F := by
    have h4 := congrArg Prod.snd hsp
    rw [pathSplit_snd] at h4
    exact h4
  unfold lastCompFull
  rcases hsep2 with rfl | rfl
  · rw [List.append_nil, rstripSlash_eq_self hJl hcne, hlc]
  · rw [rstripSlash_append_last hJl hcne]
    have h5 : rstripSlash ['/'] = ([] : PyStr) := by decide
    rw [h5, List.append_nil, hlc]

theorem lastCompFull_reassemble_pos {d b e sep : PyStr} {v : Nat} (hv : v ≠ 0)
    (hbns : '/' ∉ b) (hens : '/' ∉ e) (hsep2 : sep = [] ∨ sep = ['/'])
    (hcl : d = [] ∨ (∀ c ∈ d, c = '/') ∨ ∃ c, d.getLast? = some c ∧ c ≠ '/') :
    lastCompFull (reassemble d b v e sep) = b ++ chars ".v" ++ natDigits v ++ e := by
  have hFns : '/' ∉ (b ++ chars ".v" ++ natDigits v ++ e) := by
    intro hm
    rcases List.mem_append.mp hm with hm1 | hm1
    · rcases List.mem_append.mp hm1 with hm2 | hm2
      · rcases List.mem_append.mp hm2 with hm3 | hm3
        · exact hbns hm3
        · simp [chars] at hm3
      · exact isDigit_ne_slash (natDigits_all_digit v _ hm2) rfl
    · exact hens hm1
  have hFne : (b ++ chars ".v" ++ natDigits v ++ e) ≠ [] := by simp [chars]
  unfold reassemble
  rw [if_pos hv]
  exact lastCompFull_join hFns hFne hsep2 hcl

theorem lastCompFull_reassemble_zero {d b e sep : PyStr}
    (hbe : b ++ e ≠ []) (hbns : '/' ∉ b) (hens : '/' ∉ e)
    (hsep2 : sep = [] ∨ sep = ['/'])
    (hcl : d = [] ∨ (∀ c ∈ d, c = '/') ∨ ∃ c, d.getLast? = some c ∧ c ≠ '/') :
    lastCompFull (reassemble d b 0 e sep) = b ++ e := by
  have hFns : '/' ∉ (b ++ e) := by
    intro hm
    rcases List.mem_append.mp hm with h | h
    · exact hbns h
    · exact hens h
  unfold reassemble
  rw [if_neg (fun h => h rfl)]
  exact lastCompFull_join hFns hbe hsep2 hcl

/-- The empty-filename corner of the reassembly: the result is the
directory with a fresh trailing slash, whose full last component is that
of the root-independent remainder. -/
theorem lastCompFull_reassemble_nil {pre c2 sep : PyStr} {cc : Char}
    (hpre : pre = [] ∨ pre.getLast? = some '/')
    (hcl : c2.getLast? = some cc) (hccne : cc ≠ '/')
    (hsep2 : sep = [] ∨ sep = ['/']) :
    lastCompFull (reassemble (pre ++ c2) [] 0 [] sep) = lastComp c2 := by
  have hce : c2 ≠ [] := by
    intro h
    rw [h] at hcl
    simp at hcl
  have hgl : (pre ++ c2).getLast? = some cc := by
    rw [getLast_append_right hce]
    exact hcl
  have hre : reassemble (pre ++ c2) [] 0 [] sep = pathJoin (pre ++ c2) [] ++ sep := by
    unfold reassemble
    rw [if_neg (fun h => h rfl)]
    rfl
  have hcnd : ¬ (pre ++ c2 = [] ∨ (pre ++ c2).getLast? = some '/') := by
    rintro (h1 | h1)
    · rw [h1] at hgl
      simp at hgl
    · rw [hgl] at h1
      injection h1 with h1
      exact hccne h1
  have hj : pathJoin (pre ++ c2) [] = (pre ++ c2) ++ ['/'] := by
    unfold pathJoin
    rw [if_neg (by simp), if_neg hcnd]
  rw [hre, hj]
  unfold lastCompFull
  have hassoc : ((pre ++ c2) ++ ['/']) ++ sep = (pre ++ c2) ++ (['/'] ++ sep) := by
    rw [List.append_assoc]
  rw [hassoc]
  have hall : ∀ x ∈ (['/'] : PyStr) ++ sep, x = '/' := by
    intro x hx
    rcases hsep2 with rfl | rfl
    · simp at hx
      exact hx
    · simp at hx
      exact hx
  rw [rstripSlash_append_all hall, rstripSlash_eq_self hgl hccne]
  exact lastComp_append_pfx hpre

/-- The core of C1: for a case directory name starting with M, the
unforced bump of the working path and the forced bump of the output path
at the version the first call chose have the same full last component,
whatever the two roots and the filesystem are. -/
theorem version_sync_aux (fs extraW : List PyStr) (W O cwd : PyStr)
    (hh : cwd.head? = some 'M') :
    lastCompFull (bump_version fs (pathJoin W cwd) none extraW).1
      = lastCompFull (bump_version fs (pathJoin O cwd)
          (some (bump_version fs (pathJoin W cwd) none extraW).2) []).1 := by
  obtain ⟨C, sep, hcs⟩ : ∃ C sep, stripSep cwd = (C, sep) := ⟨_, _, rfl⟩
  obtain ⟨hCne, hChead, ⟨c0, hc0, hc0ne⟩, hsep2⟩ := stripSep_facts hh hcs
  obtain ⟨preW, dW, hpreW, hssW, hpsW, hclW, hcornW⟩ := root_split W cwd C sep hh hcs
  obtain ⟨preO, dO, hpreO, hssO, hpsO, hclO, hcornO⟩ := root_split O cwd C sep hh hcs
  obtain ⟨b, ov, e, hpf, he, hrec⟩ := parseFile_spec (lastComp C)
  have hbw := bump_version_none fs extraW hssW hpsW hpf
  have hbo := bump_version_some fs []
    (probe fs (extraW ++ [dW]) b e sep (fs.length + 1) (ov.getD 0)) hssO hpsO hpf
  rw [hbw]
  dsimp only
  rw [hbo]
  dsimp only
  have hbens : '/' ∉ b ∧ '/' ∉ e := by
    have hf0 := lastComp_no_slash C
    have hrec2 := hrec
    rcases hrec2 with ⟨-, hfe⟩ | ⟨n, ds, -, -, -, -, hfe⟩
    · exact ⟨fun hm => hf0 (hfe ▸ List.mem_append.mpr (Or.inl hm)),
        fun hm => hf0 (hfe ▸ List.mem_append.mpr (Or.inr hm))⟩
    · constructor
      · intro hm
        apply hf0
        rw [hfe]
        exact List.mem_append.mpr (Or.inl (List.mem_append.mpr (Or.inl hm)))
      · intro hm
        apply hf0
        rw [hfe]
        exact List.mem_append.mpr (Or.inr hm)
  generalize probe fs (extraW ++ [dW]) b e sep (fs.length + 1) (ov.getD 0) = V
  by_cases hv : V = 0
  · subst hv
    by_cases hbe : b ++ e = []
    · obtain ⟨hb0, he0⟩ := List.append_eq_nil.mp hbe
      subst hb0
      subst he0
      have hlne : lastComp C ≠ [] := lastComp_ne_nil hc0 hc0ne
      rcases hrec with ⟨-, hfe⟩ | ⟨n, ds, -, -, -, -, hfe⟩
      · exact absurd (by simpa using hfe.symm) hlne
      · have hfe2 : lastComp C = '.' :: 'v' :: ds := by simpa using hfe
        have hslash : '/' ∈ C := by
          by_contra hns
          have h5 : lastComp C = C := lastComp_of_no_slash hns
          rw [h5] at hfe2
          rw [hfe2] at hChead
          simp only [List.head?_cons] at hChead
          injection hChead with h6
          exact absurd h6 (by decide)
        obtain ⟨C1, hC1⟩ := corner_decomp hslash
        have hdW := hcornW C1 hC1
        have hdO := hcornO C1 hC1
        obtain ⟨t1, rfl⟩ : ∃ t1, C1 = 'M' :: t1 := by
          rcases C1 with _ | ⟨a, t1⟩
          · rw [hC1] at hChead
            simp only [List.nil_append, List.head?_cons] at hChead
            injection hChead with h6
            exact absurd h6 (by decide)
          · rw [hC1] at hChead
            simp only [List.cons_append, List.head?_cons] at hChead
            injection hChead with h6
            exact ⟨t1, by rw [h6]⟩
        obtain ⟨t2, hrs⟩ := rstripSlash_cons_head (by decide : ('M' : Char) ≠ '/') t1
        have hrsne : rstripSlash ('M' :: t1) ≠ [] := by
          rw [hrs]
          simp
        obtain ⟨cc, hcc, hccne⟩ := rstripSlash_getLast hrsne
        rw [hdW, hdO, lastCompFull_reassemble_nil hpreW hcc hccne hsep2,
          lastCompFull_reassemble_nil hpreO hcc hccne hsep2]
    · rw [lastCompFull_reassemble_zero hbe hbens.1 hbens.2 hsep2 hclW,
        lastCompFull_reassemble_zero hbe hbens.1 hbens.2 hsep2 hclO]
  · rw [lastCompFull_reassemble_pos hv hbens.1 hbens.2 hsep2 hclW,
      lastCompFull_reassemble_pos hv hbens.1 hbens.2 hsep2 hclO]

/-- C1: without overwrite, `model_paths` returns MODEL_WK_DIR and
MODEL_OUT_DIR whose paths end in the same full last component, and in
particular carry the same trailing `.vN` version marker (or both none):
the working path is bumped with the output root as shadow directory and
the output path is then forced to exactly the chosen version, so the two
stay version-synchronized for every case and filesystem state. -/
theorem c1_version_sync (fs : List PyStr) (pm : PathMgr) (case : CaseDict) :
    lastCompFull (model_paths fs pm case false).MODEL_WK_DIR
      = lastCompFull (model_paths fs pm case false).MODEL_OUT_DIR ∧
    pathVersionTag (model_paths fs pm case false).MODEL_WK_DIR
      = pathVersionTag (model_paths fs pm case false).MODEL_OUT_DIR := by
  have hwk : (model_paths fs pm case false).MODEL_WK_DIR
      = (bump_version fs (pathJoin pm.WORKING_DIR
          (chars "MDTF_" ++ case.casename ++ '_' :: case.firstyr ++ '_' :: case.lastyr))
          none [pm.OUTPUT_DIR]).1 := rfl
  have hout : (model_paths fs pm case false).MODEL_OUT_DIR
      = (bump_version fs (pathJoin pm.OUTPUT_DIR
          (chars "MDTF_" ++ case.casename ++ '_' :: case.firstyr ++ '_' :: case.lastyr))
          (some (bump_version fs (pathJoin pm.WORKING_DIR
            (chars "MDTF_" ++ case.casename ++ '_' :: case.firstyr ++ '_' :: case.lastyr))
            none [pm.OUTPUT_DIR]).2) []).1 := rfl
  have h := version_sync_aux fs [pm.OUTPUT_DIR] pm.WORKING_DIR pm.OUTPUT_DIR
    (chars "MDTF_" ++ case.casename ++ '_' :: case.firstyr ++ '_' :: case.lastyr) rfl
  rw [hwk, hout]
  refine ⟨h, ?_⟩
  unfold pathVersionTag
  rw [h]

end MDTF









